import Mathlib

/-!
Verification of the grid pathfinding and pursuit-AI core of a voxel-style
game (TypeScript sources under `src/`).

The embedding translates, function by function:

* `src/core/Pathfinder.ts` — the `Pathfinder` class: the blocked-cell set
  (a JS `Set` of `"x,z"` string keys, modelled as a `Finset` of integer
  cell pairs, the key encoding being injective on integer cells),
  `worldToCell` / `cellToWorld`, `setBlocked` / `setWalkable` /
  `isBlocked`, the A* search `findPath` with its open/closed sets, the
  Manhattan `heuristic` and `reconstructPath`.
* `src/systems/PathfindingSystem.ts` — the per-entity path request step
  and the waypoint movement step of `createPathfindingSystem`.
* `src/systems/SeekSystem.ts` — the per-entity pursuit state machine of
  `createSeekSystem`.
* `src/systems/CollisionResponseSystem.ts` — the per-entity collision
  response of `createCollisionResponseSystem`.
* `src/systems/NPCMovementSystem.ts` — `pickWalkableTargetCell` and the
  retarget step of `createNPCMovementSystem`.

World coordinates (JS numbers) are modelled as rationals, integer cell
coordinates as `Int`, and the A* cost fields `g`/`h`/`f` (small
nonnegative integers in every run) as `Nat`.
-/

namespace Game

/-- Cell coordinate pair, as in the `PathPoint` interface of Pathfinder.ts. -/
structure PathPoint where
  x : Int
  z : Int
deriving DecidableEq

/-- State of the `Pathfinder` class: the set of blocked cells.  The JS
source stores string keys `"x,z"`; that encoding is injective on integer
cells, so a set of pairs is the same data. -/
structure Pathfinder where
  blocked : Finset (Int × Int)

/-- Model of `Math.round` as used by `worldToCell`: JS rounds half-up
(toward positive infinity), which is `⌊x + 1/2⌋`. -/
def jsRound (x : ℚ) : Int := ⌊x + 1/2⌋

/-- Convert world position to cell coordinate (round to nearest integer),
Pathfinder.ts `worldToCell`. -/
def Pathfinder.worldToCell (worldX worldZ : ℚ) : PathPoint :=
  ⟨jsRound worldX, jsRound worldZ⟩

/-- Convert cell coordinate to world position (cell center = integer),
Pathfinder.ts `cellToWorld`. -/
def Pathfinder.cellToWorld (cellX cellZ : Int) : ℚ × ℚ :=
  ((cellX : ℚ), (cellZ : ℚ))

/-- Pathfinder.ts `setBlocked`: mark a cell as blocked (`Set.add`). -/
def Pathfinder.setBlocked (p : Pathfinder) (cellX cellZ : Int) : Pathfinder :=
  ⟨insert (cellX, cellZ) p.blocked⟩

/-- Pathfinder.ts `setWalkable`: mark a cell as walkable (`Set.delete`). -/
def Pathfinder.setWalkable (p : Pathfinder) (cellX cellZ : Int) : Pathfinder :=
  ⟨p.blocked.erase (cellX, cellZ)⟩

/-- Pathfinder.ts `isBlocked`: membership test on the blocked set. -/
def Pathfinder.isBlocked (p : Pathfinder) (cellX cellZ : Int) : Bool :=
  (cellX, cellZ) ∈ p.blocked

/-- Manhattan distance heuristic, Pathfinder.ts `heuristic`. -/
def heuristic (x1 z1 x2 z2 : Int) : Nat :=
  (x2 - x1).natAbs + (z2 - z1).natAbs

/-- A* search node (the `Node` interface): cell, cost from start `g`,
heuristic `h`, total `f`, and parent pointer (`null` or a node).  The
parent chain is immutable once assigned (parents are always already
expanded nodes, which the JS code never mutates afterwards), so a plain
inductive tree captures the object graph. -/
inductive Node where
  | root (x z : Int) (g h f : Nat)
  | child (x z : Int) (g h f : Nat) (parent : Node)
deriving DecidableEq

/-- Cell x of a node. -/
def Node.x : Node → Int
  | .root x _ _ _ _ => x
  | .child x _ _ _ _ _ => x

/-- Cell z of a node. -/
def Node.z : Node → Int
  | .root _ z _ _ _ => z
  | .child _ z _ _ _ _ => z

/-- Cost from start. -/
def Node.g : Node → Nat
  | .root _ _ g _ _ => g
  | .child _ _ g _ _ _ => g

/-- Stored heuristic value. -/
def Node.h : Node → Nat
  | .root _ _ _ h _ => h
  | .child _ _ _ h _ _ => h

/-- Stored total score. -/
def Node.f : Node → Nat
  | .root _ _ _ _ f => f
  | .child _ _ _ _ f _ => f

/-- Cell of a node as a `PathPoint`. -/
def Node.cell (n : Node) : PathPoint := ⟨n.x, n.z⟩

/-- Pathfinder.ts `reconstructPath`: walk the parent chain from the goal
node and emit cells root-first (the JS loop `unshift`s). -/
def reconstructPath : Node → List PathPoint
  | .root x z _ _ _ => [⟨x, z⟩]
  | .child x z _ _ _ parent => reconstructPath parent ++ [⟨x, z⟩]

/-- Out-of-range default for indexed reads; the scan below keeps every
index in range, so it is never produced. -/
def dfltNode : Node := Node.root 0 0 0 0 0

/-- The lowest-`f` scan of the JS loop (lines 126–133): walk the open set
keeping the first index whose `f` is strictly below the best so far.
The JS `for` starts at index 1 with `currentIndex = 0`; folding from
index 0 is the same function, since the extra first comparison
`f(l[0]) < f(l[0])` never fires. -/
def minFIndex (l : List Node) : Nat :=
  (List.range l.length).foldl
    (fun currentIndex i =>
      if (l.getD i dfltNode).f < (l.getD currentIndex dfltNode).f then i
      else currentIndex) 0

/-- The `findIndex`-then-update half of the neighbor step: find the first
open node at cell `(nx, nz)`; if the new cost `g` beats its `g`, replace
its `g`, `f` and parent in place (the stored `h` is untouched, as in the
JS).  Returns `none` when no open node has that cell. -/
def improveFirst (nx nz : Int) (g f : Nat) (par : Node) :
    List Node → Option (List Node)
  | [] => none
  | n :: rest =>
    if n.x = nx ∧ n.z = nz then
      some (if g < n.g then Node.child nx nz g n.h f par :: rest else n :: rest)
    else
      (improveFirst nx nz g f par rest).map (n :: ·)

/-- One neighbor iteration of the A* inner loop (Pathfinder.ts lines
152–183): skip closed or blocked cells, otherwise improve the existing
open entry or push a fresh node. -/
def processNeighbor (p : Pathfinder) (closed : List PathPoint) (cur : Node)
    (gx gz : Int) (acc : List Node) (nb : Int × Int) : List Node :=
  if (⟨nb.1, nb.2⟩ : PathPoint) ∈ closed then acc
  else if p.isBlocked nb.1 nb.2 then acc
  else
    let g := cur.g + 1
    let h := heuristic nb.1 nb.2 gx gz
    let f := g + h
    match improveFirst nb.1 nb.2 g f cur acc with
    | some updated => updated
    | none => acc ++ [Node.child nb.1 nb.2 g h f cur]

/-- The four cardinal neighbors of the current node, in source order. -/
def neighborsOf (cur : Node) : List (Int × Int) :=
  [(cur.x - 1, cur.z), (cur.x + 1, cur.z), (cur.x, cur.z - 1), (cur.x, cur.z + 1)]

/-- The A* main loop (Pathfinder.ts lines 123–184).  `fuel` is the number
of iterations still allowed (`maxIterations - iterations`); the JS loop
also stops when the open set empties.  Each pass pops the lowest-`f`
node, returns its reconstructed chain if it is the goal, and otherwise
closes it and processes its four cardinal neighbors. -/
def astarLoop (p : Pathfinder) (gx gz : Int) :
    Nat → List Node → List PathPoint → Option (List PathPoint)
  | 0, _, _ => none
  | _ + 1, [], _ => none
  | fuel + 1, a :: rest, closed =>
    let opn := a :: rest
    let currentIndex := minFIndex opn
    let cur := opn.getD currentIndex dfltNode
    if cur.x = gx ∧ cur.z = gz then
      some (reconstructPath cur)
    else
      let closed1 := cur.cell :: closed
      let opened := (neighborsOf cur).foldl (processNeighbor p closed1 cur gx gz)
        (opn.eraseIdx currentIndex)
      astarLoop p gx gz fuel opened closed1

/-- Pathfinder.ts `findPath` after the `Math.floor` coordinate
normalization: early exits for a blocked goal, a blocked start and
start = goal, then the A* loop seeded with the start node. -/
def findPathInt (p : Pathfinder) (sx sz gx gz : Int)
    (maxIterations : Nat := 1000) : Option (List PathPoint) :=
  if p.isBlocked gx gz then none
  else if p.isBlocked sx sz then none
  else if sx = gx ∧ sz = gz then some [⟨gx, gz⟩]
  else
    let h0 := heuristic sx sz gx gz
    astarLoop p gx gz maxIterations [Node.root sx sz 0 h0 (0 + h0)] []

/-- Pathfinder.ts `findPath`: floor the (possibly fractional) inputs to
integer cells, then search. -/
def Pathfinder.findPath (p : Pathfinder) (startX startZ goalX goalZ : ℚ)
    (maxIterations : Nat := 1000) : Option (List PathPoint) :=
  findPathInt p ⌊startX⌋ ⌊startZ⌋ ⌊goalX⌋ ⌊goalZ⌋ maxIterations

/-! ### Path follower (PathfindingSystem.ts) -/

/-- The `PathFollower` component. -/
structure PathFollower where
  path : List PathPoint
  pathIndex : Int
  targetX : ℚ
  targetZ : ℚ
  moveSpeed : ℚ
  needsPath : Bool
  pathRetryTime : ℚ
deriving DecidableEq

/-- PathfindingSystem.ts `PATH_RETRY_COOLDOWN`. -/
def PATH_RETRY_COOLDOWN : ℚ := 1/2

/-- The path request step of `createPathfindingSystem` (lines 49–67): when
a path is needed and the retry cooldown has elapsed, run A* from the
entity's current cell to the target cell; adopt the path on success,
otherwise arm the retry cooldown.  In both branches the request flag is
cleared; nothing is thrown. -/
def requestPath (p : Pathfinder) (posX posZ : ℚ) (pf : PathFollower) : PathFollower :=
  if pf.needsPath = true ∧ pf.pathRetryTime ≤ 0 then
    let currentCell := Pathfinder.worldToCell posX posZ
    let targetCell := Pathfinder.worldToCell pf.targetX pf.targetZ
    match p.findPath (currentCell.x : ℚ) (currentCell.z : ℚ)
        (targetCell.x : ℚ) (targetCell.z : ℚ) with
    | some path =>
      if path.length > 0 then
        { pf with path := path, pathIndex := 0, needsPath := false }
      else
        { pf with pathRetryTime := PATH_RETRY_COOLDOWN, needsPath := false }
    | none => { pf with pathRetryTime := PATH_RETRY_COOLDOWN, needsPath := false }
  else pf

/-- The waypoint movement step of `createPathfindingSystem` (lines
81–102), position part: within the arrival threshold (0.05) snap to the
waypoint center, otherwise move toward it by the ratio-clamped step.
`dist` is the caller's `Math.sqrt(dx*dx + dz*dz)`; square roots leave the
rationals, so the embedding takes the distance as an argument that the
theorems constrain by `dist * dist = dx * dx + dz * dz` and `0 ≤ dist`. -/
def moveTowardWaypoint (posX posZ targetWX targetWZ dist moveSpeed dt : ℚ) : ℚ × ℚ :=
  let dx := targetWX - posX
  let dz := targetWZ - posZ
  if dist < 1/20 then (targetWX, targetWZ)
  else
    let moveAmount := moveSpeed * dt
    let ratio := min (moveAmount / dist) 1
    (posX + dx * ratio, posZ + dz * ratio)

/-! ### Pursuit state machine (SeekSystem.ts) -/

/-- The `SeekState` union type. -/
inductive SeekState where
  | idle
  | seeking
  | cooldown
  | seekAndDestroy
deriving DecidableEq

/-- The `SeekBehavior` component. -/
structure SeekBehavior where
  state : SeekState
  detectionRadius : ℚ
  pursuitSteps : Int
  stepsRemaining : Int
  cooldownTime : ℚ
  cooldownRemaining : ℚ
  lastPlayerCellX : Int
  lastPlayerCellZ : Int
  aggravationCount : Int
  aggravationThreshold : Int
  seekAndDestroyDuration : ℚ
  seekAndDestroyRemaining : ℚ
deriving DecidableEq

/-- What `getTargetInfo` returns about the pursued player: its position
and, when the player has one, its `PathFollower` (of which the seek logic
reads only `targetX`/`targetZ`). -/
structure TargetInfo where
  posX : ℚ
  posZ : ℚ
  pathTarget : Option (ℚ × ℚ)
deriving DecidableEq

/-- Result of one pursuit tick for one entity: the mutated `SeekBehavior`
and `PathFollower`, the wander wait timer when the entity has a
`WanderBehavior`, the entity's `lastPathIndex` map entry and its
`skipStepCount` membership (the two closure-level trackers of
`createSeekSystem`). -/
structure SeekResult where
  seek : SeekBehavior
  pf : PathFollower
  wanderWait : Option ℚ
  lastIdx : Option Int
  skip : Bool
deriving DecidableEq

/-- The waypoint-progress step counting of the seeking branch
(SeekSystem.ts lines 221–235): while `skipStepCount` holds the entity,
waypoint progress is not counted (the skip ends once the waypoint index
reaches 2); otherwise an advance of exactly one to an index ≥ 2 consumes
one pursuit step.  Returns the updated steps-remaining, `lastPathIndex`
entry and skip flag. -/
def countStep (stepsRemaining currentIndex prevIndex : Int) (skip : Bool) :
    Int × Option Int × Bool :=
  if skip then
    (stepsRemaining, some currentIndex, if currentIndex ≥ 2 then false else true)
  else if currentIndex = prevIndex + 1 ∧ currentIndex ≥ 2 then
    (stepsRemaining - 1, some currentIndex, false)
  else
    (stepsRemaining, some currentIndex, false)

/-- Exit to plain cooldown shared by the three seek-and-destroy exits and
(without the aggravation reset) by nothing else: state := cooldown, timer
armed, aggravation cleared, path dropped, wander wait shortened
(SeekSystem.ts lines 325–345, 353–372, 393–412). -/
def seekAndDestroyExit (seek : SeekBehavior) (pf : PathFollower)
    (wanderWait : Option ℚ) (prevIdx : Option Int) (skip : Bool) : SeekResult :=
  { seek := { seek with
      state := .cooldown
      cooldownRemaining := seek.cooldownTime
      aggravationCount := 0 }
    pf := { pf with path := [], pathIndex := -1, needsPath := false }
    wanderWait := wanderWait.map fun _ => 1/2
    lastIdx := prevIdx
    skip := skip }

/-- One tick of `createSeekSystem` for one entity (the `switch` of lines
151–415).  The surrounding world reads are abstracted as arguments:
`enemy` is `findNearestEnemy`'s result in the idle branch (world position
of the chosen player), `info` is `getTargetInfo`'s result for the tracked
target (`none` when the target entity vanished), `npcCell` is the NPC's
current cell, `distToTarget` is the seek-and-destroy branch's
`Math.sqrt(dx*dx + dz*dz)` in cells (taken as an argument like every
square root in this embedding), `prevIdx` is the entity's `lastPathIndex`
map entry and `skip` its `skipStepCount` membership.  Material swaps are
pure visual effects and are not modelled. -/
def seekTick (seek : SeekBehavior) (pf : PathFollower) (wanderWait : Option ℚ)
    (enemy : Option (ℚ × ℚ)) (info : Option TargetInfo)
    (distToTarget : ℚ) (prevIdx : Option Int) (skip : Bool) (dt : ℚ) : SeekResult :=
  match seek.state with
  | .idle =>
    match enemy with
    | none => ⟨seek, pf, wanderWait, prevIdx, skip⟩
    | some epos =>
      let targetCell := Pathfinder.worldToCell epos.1 epos.2
      let targetWorld := Pathfinder.cellToWorld targetCell.x targetCell.z
      { seek := { seek with
          state := .seeking
          stepsRemaining := seek.pursuitSteps
          lastPlayerCellX := targetCell.x
          lastPlayerCellZ := targetCell.z }
        pf := { pf with
          targetX := targetWorld.1, targetZ := targetWorld.2
          needsPath := true, path := [], pathIndex := -1 }
        wanderWait := wanderWait.map fun _ => 999
        lastIdx := some (-1)
        skip := true }
  | .seeking =>
    match info with
    | none =>
      { seek := { seek with state := .idle }
        pf := { pf with path := [], pathIndex := -1, needsPath := false }
        wanderWait := wanderWait.map fun _ => 1/2
        lastIdx := prevIdx
        skip := skip }
    | some ti =>
      let targetCell := Pathfinder.worldToCell ti.posX ti.posZ
      let counted := countStep seek.stepsRemaining pf.pathIndex (prevIdx.getD (-1)) skip
      let seek1 := { seek with stepsRemaining := counted.1 }
      if seek1.stepsRemaining ≤ 0 then
        let seek2 := { seek1 with aggravationCount := seek1.aggravationCount + 1 }
        if seek2.aggravationCount ≥ seek2.aggravationThreshold then
          let dest := match ti.pathTarget with
            | some t => t
            | none => Pathfinder.cellToWorld targetCell.x targetCell.z
          { seek := { seek2 with
              state := .seekAndDestroy
              seekAndDestroyRemaining := seek2.seekAndDestroyDuration }
            pf := { pf with
              targetX := dest.1, targetZ := dest.2
              needsPath := true, path := [], pathIndex := -1 }
            wanderWait := wanderWait
            lastIdx := none
            skip := counted.2.2 }
        else
          { seek := { seek2 with
              state := .cooldown
              cooldownRemaining := seek2.cooldownTime }
            pf := { pf with path := [], pathIndex := -1, needsPath := false }
            wanderWait := wanderWait.map fun _ => 1/2
            lastIdx := none
            skip := counted.2.2 }
      else
        let moved := targetCell.x ≠ seek1.lastPlayerCellX ∨ targetCell.z ≠ seek1.lastPlayerCellZ
        let seek3 := if moved then
            { seek1 with lastPlayerCellX := targetCell.x, lastPlayerCellZ := targetCell.z }
          else seek1
        let tw := Pathfinder.cellToWorld targetCell.x targetCell.z
        let pf1 := if moved then
            { pf with targetX := tw.1, targetZ := tw.2, needsPath := true }
          else pf
        let pf2 := if pf1.pathIndex = -1 ∧ pf1.path.length = 0 ∧ pf1.needsPath = false then
            { pf1 with targetX := tw.1, targetZ := tw.2, needsPath := true }
          else pf1
        { seek := seek3, pf := pf2, wanderWait := wanderWait
          lastIdx := counted.2.1
          skip := if moved then true else counted.2.2 }
  | .cooldown =>
    let seek1 := { seek with cooldownRemaining := seek.cooldownRemaining - dt }
    if seek1.cooldownRemaining ≤ 0 then
      ⟨{ seek1 with state := .idle, cooldownRemaining := 0 }, pf, wanderWait, prevIdx, skip⟩
    else
      ⟨seek1, pf, wanderWait, prevIdx, skip⟩
  | .seekAndDestroy =>
    let seek1 := { seek with seekAndDestroyRemaining := seek.seekAndDestroyRemaining - dt }
    match info with
    | none => seekAndDestroyExit seek1 pf wanderWait prevIdx skip
    | some ti =>
      if distToTarget > seek1.detectionRadius * 4 then
        seekAndDestroyExit seek1 pf wanderWait prevIdx skip
      else
        let pf1 := match ti.pathTarget with
          | some dest =>
            if pf.targetX ≠ dest.1 ∨ pf.targetZ ≠ dest.2 then
              { pf with targetX := dest.1, targetZ := dest.2, needsPath := true }
            else pf
          | none => pf
        let pf2 := if pf1.pathIndex = -1 ∧ pf1.path.length = 0 ∧ pf1.needsPath = false then
            { pf1 with needsPath := true }
          else pf1
        if seek1.seekAndDestroyRemaining ≤ 0 then
          seekAndDestroyExit seek1 pf2 wanderWait prevIdx skip
        else
          ⟨seek1, pf2, wanderWait, prevIdx, skip⟩

/-! ### Collision response (CollisionResponseSystem.ts) -/

/-- Collision layers of the contacts the response system inspects. -/
inductive Layer where
  | block
  | player
  | npc
deriving DecidableEq

/-- One collision contact. -/
structure Contact where
  layer : Layer
  penetration : ℚ
  normalX : ℚ
  normalZ : ℚ
deriving DecidableEq

/-- The `CollisionState` component. -/
structure CollisionState where
  isColliding : Bool
  contacts : List Contact
deriving DecidableEq

/-- The `MovementState` component: the pre-move position recorded by the
pathfinding system. -/
structure MovementState where
  prevX : ℚ
  prevZ : ℚ
deriving DecidableEq

/-- Result of the collision response for one entity: position, the
`PathFollower` when the entity has one, the wander wait timer when it has
a `WanderBehavior`. -/
structure CollisionOutcome where
  pos : ℚ × ℚ
  pf : Option PathFollower
  wanderWait : Option ℚ
deriving DecidableEq

/-- One entity's pass of `createCollisionResponseSystem` (lines 30–127):
a block contact always reverts the position and clears the path; a player
contact reverts, and clears the path only when the entity is not in a
pursuing seek state; an npc contact applies a soft separating nudge above
the penetration threshold. -/
def collisionResponse (state : CollisionState) (movement : MovementState)
    (pos : ℚ × ℚ) (seekState : Option SeekState) (pf : Option PathFollower)
    (wanderWait : Option ℚ) : CollisionOutcome :=
  if state.isColliding = false then ⟨pos, pf, wanderWait⟩
  else
    let blockContact := state.contacts.find? (fun c => c.layer = .block)
    let playerContact := state.contacts.find? (fun c => c.layer = .player)
    let npcContact := state.contacts.find? (fun c => c.layer = .npc)
    let isSeeking := seekState = some .seeking ∨ seekState = some .seekAndDestroy
    match blockContact with
    | some _ =>
      { pos := (movement.prevX, movement.prevZ)
        pf := pf.map fun f => { f with path := [], pathIndex := -1, needsPath := false }
        wanderWait := wanderWait.map fun _ => 1/5 }
    | none =>
      match playerContact with
      | some _ =>
        if isSeeking then
          ⟨(movement.prevX, movement.prevZ), pf, wanderWait⟩
        else
          { pos := (movement.prevX, movement.prevZ)
            pf := pf.map fun f => { f with path := [], pathIndex := -1, needsPath := false }
            wanderWait := wanderWait.map fun _ => 1/2 }
      | none =>
        match npcContact with
        | some c =>
          if c.penetration > 1/5 then
            ⟨(pos.1 + c.normalX * c.penetration * (1/2),
              pos.2 + c.normalZ * c.penetration * (1/2)), pf, wanderWait⟩
          else ⟨pos, pf, wanderWait⟩
        | none => ⟨pos, pf, wanderWait⟩

/-! ### Wander targeting (NPCMovementSystem.ts) -/

/-- NPCMovementSystem.ts `MAX_TARGET_ATTEMPTS`. -/
def MAX_TARGET_ATTEMPTS : Nat := 20

/-- One attempt's random draw: the cosine and sine of the drawn angle and
the `Math.random()` sample scaled by the radius to a distance.  The
theorems constrain `c` and `s` to the unit circle and `u` to `[0, 1)`. -/
structure Draw where
  c : ℚ
  s : ℚ
  u : ℚ
deriving DecidableEq

/-- The candidate cell of one attempt of `pickWalkableTargetCell` (lines
32–43): offset the origin cell by the floored polar sample, reject
blocked cells and the avoided cell. -/
def pickAttempt (p : Pathfinder) (originCell : PathPoint) (radius : ℚ)
    (avoidCell : Option PathPoint) (d : Draw) : Option PathPoint :=
  let dist := d.u * radius
  let cellX := originCell.x + ⌊d.c * dist⌋
  let cellZ := originCell.z + ⌊d.s * dist⌋
  if p.isBlocked cellX cellZ then none
  else if avoidCell.any (fun a => cellX = a.x ∧ cellZ = a.z) then none
  else some ⟨cellX, cellZ⟩

/-- The attempt loop of `pickWalkableTargetCell`: return the first
accepted candidate, `none` when every attempt rejected. -/
def pickFrom (p : Pathfinder) (originCell : PathPoint) (radius : ℚ)
    (avoidCell : Option PathPoint) : List Draw → Option PathPoint
  | [] => none
  | d :: rest =>
    match pickAttempt p originCell radius avoidCell d with
    | some cell => some cell
    | none => pickFrom p originCell radius avoidCell rest

/-- NPCMovementSystem.ts `pickWalkableTargetCell` (lines 23–46): up to
`MAX_TARGET_ATTEMPTS` attempts, one random draw each. -/
def pickWalkableTargetCell (p : Pathfinder) (originX originZ radius : ℚ)
    (avoidCell : Option PathPoint) (draws : List Draw) : Option PathPoint :=
  pickFrom p (Pathfinder.worldToCell originX originZ) radius avoidCell
    (draws.take MAX_TARGET_ATTEMPTS)

/-- The `WanderBehavior` component (origin, radius, wait timer). -/
structure WanderBehavior where
  originX : ℚ
  originZ : ℚ
  radius : ℚ
  waitTime : ℚ
deriving DecidableEq

/-- The retarget step of `createNPCMovementSystem` (lines 91–105), taken
when the entity has no path, no pending request and no retry cooldown: on
a successful pick, aim the path follower at the cell center and request a
path; otherwise set a short wait. -/
def wanderRetarget (p : Pathfinder) (wander : WanderBehavior) (pf : PathFollower)
    (playerCell : Option PathPoint) (draws : List Draw) :
    WanderBehavior × PathFollower :=
  match pickWalkableTargetCell p wander.originX wander.originZ wander.radius
      playerCell draws with
  | some targetCell =>
    let targetWorld := Pathfinder.cellToWorld targetCell.x targetCell.z
    (wander, { pf with targetX := targetWorld.1, targetZ := targetWorld.2, needsPath := true })
  | none => ({ wander with waitTime := 1/2 }, pf)

/-! ### Specification-side notions for the A* claims -/

/-- Two cells differ by exactly one unit in exactly one axis (one
4-connected cardinal step). -/
def isStep (a b : PathPoint) : Prop :=
  (b.x - a.x).natAbs + (b.z - a.z).natAbs = 1

instance : DecidableRel isStep := fun a b => by unfold isStep; infer_instance

/-- A valid route witness: a nonempty list of cells from `s` to `t`,
each consecutive pair one cardinal step apart, with every cell unblocked
in the grid `p`. -/
def ValidPath (p : Pathfinder) (s t : PathPoint) (l : List PathPoint) : Prop :=
  l ≠ [] ∧ l.head? = some s ∧ l.getLast? = some t ∧ l.Chain' isStep ∧
    ∀ c ∈ l, p.isBlocked c.x c.z = false

instance (p : Pathfinder) (s t : PathPoint) (l : List PathPoint) :
    Decidable (ValidPath p s t l) := by unfold ValidPath; infer_instance

/-- Cell `t` can be reached from `s` in exactly `k` unblocked cardinal
steps. -/
inductive Reach (p : Pathfinder) (s : PathPoint) : PathPoint → Nat → Prop where
  | base : p.isBlocked s.x s.z = false → Reach p s s 0
  | step {c d : PathPoint} {k : Nat} : Reach p s c k → isStep c d →
      p.isBlocked d.x d.z = false → Reach p s d (k + 1)

/-- Manhattan distance between two cells (the `heuristic` on cells). -/
def hdist (a b : PathPoint) : Nat := heuristic a.x a.z b.x b.z

/-- Everything the search maintains about one open node: its parent chain
is a valid path from the start to its cell of length `g + 1`, its stored
`h` is the Manhattan distance to the goal, its stored `f` is `g + h`, and
its cell is not closed. -/
def nodeOk (p : Pathfinder) (s goal : PathPoint) (closed : List PathPoint)
    (n : Node) : Prop :=
  ValidPath p s n.cell (reconstructPath n) ∧
  (reconstructPath n).length = n.g + 1 ∧
  n.h = hdist n.cell goal ∧ n.f = n.g + n.h ∧ n.cell ∉ closed

/-- The A* loop invariant.  `D` is the (ghost) cost at which each closed
cell was expanded: closed cells were reached at cost `D c`, optimally;
every unblocked neighbor of a closed cell is closed or has an open entry
of cost at most `D c + 1`; open cells are pairwise distinct; the start is
closed or open at cost 0. -/
structure AInv (p : Pathfinder) (s goal : PathPoint) (opn : List Node)
    (closed : List PathPoint) (D : PathPoint → Nat) : Prop where
  node : ∀ n ∈ opn, nodeOk p s goal closed n
  nodup : (opn.map Node.cell).Nodup
  reach : ∀ c ∈ closed, Reach p s c (D c)
  opt : ∀ c ∈ closed, ∀ k, Reach p s c k → D c ≤ k
  frontier : ∀ c ∈ closed, ∀ d, isStep c d → p.isBlocked d.x d.z = false →
    d ∈ closed ∨ ∃ n ∈ opn, n.cell = d ∧ n.g ≤ D c + 1
  start : s ∈ closed ∨ ∃ n ∈ opn, n.cell = s ∧ n.g = 0

/-! ## Theorems -/

/-- C7: Grid Index operations: `setBlocked` then `setWalkable` leaves the
cell unblocked; `setBlocked` alone leaves it blocked; both operations are
idempotent; the outcomes hold regardless of the prior state (the state
`p` is universally quantified); and neither operation affects any other
cell. -/
theorem gridIndex_blocked_consistency (p : Pathfinder) (x z x2 z2 : Int) :
    ((p.setBlocked x z).setWalkable x z).isBlocked x z = false ∧
    (p.setBlocked x z).isBlocked x z = true ∧
    (p.setBlocked x z).setBlocked x z = p.setBlocked x z ∧
    (p.setWalkable x z).setWalkable x z = p.setWalkable x z ∧
    ((x2, z2) ≠ (x, z) →
      (p.setBlocked x z).isBlocked x2 z2 = p.isBlocked x2 z2 ∧
      (p.setWalkable x z).isBlocked x2 z2 = p.isBlocked x2 z2) := by
  refine ⟨?_, ?_, ?_, ?_, fun hne => ?_⟩
  · simp [Pathfinder.setBlocked, Pathfinder.setWalkable, Pathfinder.isBlocked,
      Finset.erase_insert_eq_erase, Finset.mem_erase]
  · simp [Pathfinder.setBlocked, Pathfinder.isBlocked]
  · simp [Pathfinder.setBlocked, Finset.insert_idem]
  · simp [Pathfinder.setWalkable, Finset.erase_idem]
  · have hne2 : ¬(x2 = x ∧ z2 = z) := fun hand => hne (by rw [hand.1, hand.2])
    constructor <;>
      · simp [Pathfinder.setBlocked, Pathfinder.setWalkable, Pathfinder.isBlocked,
          Finset.mem_insert, Finset.mem_erase, Prod.ext_iff]
        tauto

/-- C7 witness: the operations evaluated at a concrete state and cell. -/
theorem gridIndex_blocked_consistency_witness :
    (((2 : Int), (3 : Int)) ≠ ((0 : Int), (1 : Int)) →
      ((⟨∅⟩ : Pathfinder).setBlocked 0 1).isBlocked 2 3 = (⟨∅⟩ : Pathfinder).isBlocked 2 3 ∧
      ((⟨∅⟩ : Pathfinder).setWalkable 0 1).isBlocked 2 3 = (⟨∅⟩ : Pathfinder).isBlocked 2 3) ∧
    (((⟨∅⟩ : Pathfinder).setBlocked 0 1).setWalkable 0 1).isBlocked 0 1 = false ∧
    ((⟨∅⟩ : Pathfinder).setBlocked 0 1).isBlocked 0 1 = true :=
  ⟨(gridIndex_blocked_consistency ⟨∅⟩ 0 1 2 3).2.2.2.2,
    (gridIndex_blocked_consistency ⟨∅⟩ 0 1 2 3).1,
    (gridIndex_blocked_consistency ⟨∅⟩ 0 1 2 3).2.1⟩

/-- C10, amended: `findPath` is invariant under flooring its coordinate
arguments; the world coordinate 1.6 is cell 1 for `findPath` but cell 2
for `worldToCell`; and the floor convention of `findPath` agrees with the
round-to-nearest convention of `worldToCell` exactly when the fractional
part of the input is below one half (so on all integer inputs, but also
on non-integer ones with small fractional part). -/
theorem findPath_floor_invariant (p : Pathfinder) (x z gx gz : ℚ) (n : Nat) :
    p.findPath x z gx gz n
      = p.findPath ((⌊x⌋ : ℚ)) ((⌊z⌋ : ℚ)) ((⌊gx⌋ : ℚ)) ((⌊gz⌋ : ℚ)) n ∧
    ⌊(8/5 : ℚ)⌋ = 1 ∧ (Pathfinder.worldToCell (8/5) (8/5)).x = 2 ∧
    (⌊x⌋ = (Pathfinder.worldToCell x x).x ↔ x - ⌊x⌋ < 1/2) := by
  refine ⟨by simp [Pathfinder.findPath], by norm_num,
    by norm_num [Pathfinder.worldToCell, jsRound], ?_⟩
  simp only [Pathfinder.worldToCell, jsRound]
  constructor
  · intro hfl
    have h1 : (x + 1/2 : ℚ) < ⌊x + 1/2⌋ + 1 := Int.lt_floor_add_one _
    rw [← hfl] at h1
    linarith
  · intro hlt
    have h2 : ((⌊x⌋ : ℚ)) ≤ x := Int.floor_le x
    refine (Int.floor_eq_iff.mpr ⟨by linarith, by linarith⟩).symm

/-- C10 counterexample to the claim as stated: at the non-integer input
1.2 the two conventions agree (both give cell 1), so floor and
round-to-nearest do not agree *only* on integer inputs. -/
theorem findPath_floor_agreement_counterexample :
    ⌊(6/5 : ℚ)⌋ = (Pathfinder.worldToCell (6/5) (6/5)).x ∧
    (6/5 : ℚ) ≠ ((⌊(6/5 : ℚ)⌋ : Int) : ℚ) := by
  norm_num [Pathfinder.worldToCell, jsRound]

/-- C5: the waypoint movement step, taken when the distance to the
waypoint is at or above the arrival threshold 0.05, covers exactly
`min(moveSpeed * dt, dist)` of ground for any nonnegative speed and dt:
the squared length of the step equals that minimum squared, the minimum
never exceeds the pre-move distance, and the squared post-move distance
equals `(dist - min(moveSpeed * dt, dist))^2` with that difference
nonnegative (no overshoot). -/
theorem movement_no_overshoot (posX posZ tx tz dist speed dt : ℚ)
    (hdist : dist * dist = (tx - posX) * (tx - posX) + (tz - posZ) * (tz - posZ))
    (hthr : 1/20 ≤ dist) (_hspeed : 0 ≤ speed) (_hdt : 0 ≤ dt) :
    ((moveTowardWaypoint posX posZ tx tz dist speed dt).1 - posX)
        * ((moveTowardWaypoint posX posZ tx tz dist speed dt).1 - posX)
      + ((moveTowardWaypoint posX posZ tx tz dist speed dt).2 - posZ)
        * ((moveTowardWaypoint posX posZ tx tz dist speed dt).2 - posZ)
      = min (speed * dt) dist * min (speed * dt) dist ∧
    min (speed * dt) dist ≤ dist ∧
    (tx - (moveTowardWaypoint posX posZ tx tz dist speed dt).1)
        * (tx - (moveTowardWaypoint posX posZ tx tz dist speed dt).1)
      + (tz - (moveTowardWaypoint posX posZ tx tz dist speed dt).2)
        * (tz - (moveTowardWaypoint posX posZ tx tz dist speed dt).2)
      = (dist - min (speed * dt) dist) * (dist - min (speed * dt) dist) ∧
    0 ≤ dist - min (speed * dt) dist := by
  have hpos : 0 < dist := lt_of_lt_of_le (by norm_num) hthr
  have hnlt : ¬(dist < 1/20) := not_lt.mpr hthr
  have hratio : dist * min (speed * dt / dist) 1 = min (speed * dt) dist := by
    rcases le_total (speed * dt) dist with hle | hge
    · rw [min_eq_left ((div_le_one hpos).mpr hle), min_eq_left hle]
      field_simp
    · rw [min_eq_right ((one_le_div hpos).mpr hge), min_eq_right hge, mul_one]
  simp only [moveTowardWaypoint, hnlt, if_false]
  set r := min (speed * dt / dist) 1 with hrdef
  refine ⟨?_, min_le_right _ _, ?_, sub_nonneg.mpr (min_le_right _ _)⟩
  · rw [← hratio]
    linear_combination (-(r * r)) * hdist
  · rw [← hratio]
    linear_combination (-((1 - r) * (1 - r))) * hdist

/-- C5 witness: the movement step at a concrete state (3-4-5 triangle,
speed 1, dt 1): hypotheses hold and the step is `min 1 5 = 1`. -/
theorem movement_no_overshoot_witness :
    ((5 : ℚ) * 5 = (3 - 0) * (3 - 0) + (4 - 0) * (4 - 0)) ∧
    ((moveTowardWaypoint 0 0 3 4 5 1 1).1 - 0) * ((moveTowardWaypoint 0 0 3 4 5 1 1).1 - 0)
      + ((moveTowardWaypoint 0 0 3 4 5 1 1).2 - 0) * ((moveTowardWaypoint 0 0 3 4 5 1 1).2 - 0)
      = min ((1 : ℚ) * 1) 5 * min ((1 : ℚ) * 1) 5 ∧
    min ((1 : ℚ) * 1) 5 ≤ 5 :=
  ⟨by norm_num,
    (movement_no_overshoot 0 0 3 4 5 1 1 (by norm_num) (by norm_num)
      (by norm_num) (by norm_num)).1,
    (movement_no_overshoot 0 0 3 4 5 1 1 (by norm_num) (by norm_num)
      (by norm_num) (by norm_num)).2.1⟩

/-! ### Helper lemmas for the A* proof -/

/-- Manhattan distance is consistent: one step changes it by at most 1. -/
theorem hdist_step_le {a b : PathPoint} (goal : PathPoint) (h : isStep a b) :
    hdist a goal ≤ hdist b goal + 1 := by
  unfold isStep at h
  unfold hdist heuristic
  omega

/-- A cell one step away from `a` appears among the four cardinal
neighbor offsets of any node at `a`'s cell. -/
theorem isStep_mem_neighborsOf {cur : Node} {d : PathPoint}
    (h : isStep cur.cell d) : (d.x, d.z) ∈ neighborsOf cur := by
  unfold isStep Node.cell at h
  simp only [neighborsOf, List.mem_cons, List.mem_singleton, Prod.mk.injEq]
  have hcase : (d.x = cur.x - 1 ∧ d.z = cur.z) ∨ (d.x = cur.x + 1 ∧ d.z = cur.z) ∨
      (d.x = cur.x ∧ d.z = cur.z - 1) ∨ (d.x = cur.x ∧ d.z = cur.z + 1) := by
    simp only at h
    omega
  tauto

/-- The cells produced by `neighborsOf` are one step from the node. -/
theorem neighborsOf_isStep {cur : Node} {nb : Int × Int}
    (h : nb ∈ neighborsOf cur) : isStep cur.cell ⟨nb.1, nb.2⟩ := by
  simp only [neighborsOf, List.mem_cons, List.not_mem_nil, or_false] at h
  unfold isStep Node.cell
  rcases h with rfl | rfl | rfl | rfl <;> simp

/-- Behavior of the first-minimum index scan, for any key function: the
result is zero or in range, and its key is minimal over the scanned
range. -/
theorem foldl_scan_spec (key : Nat → Nat) :
    ∀ k : Nat,
      ((List.range k).foldl (fun cur i => if key i < key cur then i else cur) 0 = 0 ∨
        (List.range k).foldl (fun cur i => if key i < key cur then i else cur) 0 < k) ∧
      ∀ j, j < k →
        key ((List.range k).foldl (fun cur i => if key i < key cur then i else cur) 0)
          ≤ key j := by
  intro k
  induction k with
  | zero => exact ⟨Or.inl rfl, fun j hj => absurd hj (Nat.not_lt_zero j)⟩
  | succ k ih =>
    obtain ⟨hb, hmin⟩ := ih
    rw [List.range_succ, List.foldl_append, List.foldl_cons, List.foldl_nil]
    by_cases hlt : key k <
        key ((List.range k).foldl (fun cur i => if key i < key cur then i else cur) 0)
    · rw [if_pos hlt]
      refine ⟨Or.inr (Nat.lt_succ_self k), ?_⟩
      intro j hj
      rcases Nat.lt_succ_iff_lt_or_eq.mp hj with hj2 | rfl
      · exact le_trans (le_of_lt hlt) (hmin j hj2)
      · exact le_refl _
    · rw [if_neg hlt]
      refine ⟨?_, ?_⟩
      · rcases hb with h0 | hk
        · exact Or.inl h0
        · exact Or.inr (Nat.lt_succ_of_lt hk)
      · intro j hj
        rcases Nat.lt_succ_iff_lt_or_eq.mp hj with hj2 | rfl
        · exact hmin j hj2
        · exact not_lt.mp hlt

/-- The scan index is in range on a nonempty open set and the chosen
node has minimal f over it. -/
theorem minFIndex_spec (l : List Node) (hne : l ≠ []) :
    minFIndex l < l.length ∧ ∀ m ∈ l, (l.getD (minFIndex l) dfltNode).f ≤ m.f := by
  have hlen : 0 < l.length := List.length_pos.mpr hne
  have hgen := foldl_scan_spec (fun j => (l.getD j dfltNode).f) l.length
  have heq : minFIndex l = (List.range l.length).foldl
      (fun cur i => if (fun j => (l.getD j dfltNode).f) i
        < (fun j => (l.getD j dfltNode).f) cur then i else cur) 0 := rfl
  constructor
  · rw [heq]
    rcases hgen.1 with h0 | hk
    · rw [h0]; exact hlen
    · exact hk
  · intro m hm
    obtain ⟨j, hj, rfl⟩ := List.mem_iff_getElem.mp hm
    have hgd : l.getD j dfltNode = l[j] := List.getD_eq_getElem l dfltNode hj
    rw [← hgd, heq]
    exact hgen.2 j hj

/-- Removing the scanned index and re-consing its node permutes the open
set (what splice(currentIndex, 1) removes). -/
theorem getD_cons_eraseIdx_perm :
    ∀ (l : List Node) (i : Nat), i < l.length →
      (l.getD i dfltNode :: l.eraseIdx i).Perm l := by
  intro l
  induction l with
  | nil => intro i hi; exact absurd hi (by simp)
  | cons a rest ih =>
    intro i hi
    cases i with
    | zero => simp
    | succ i =>
      have hi2 : i < rest.length := by simpa using hi
      have hperm := ih i hi2
      simp only [List.getD_cons_succ, List.eraseIdx_cons_succ]
      exact (List.Perm.swap a _ _).trans (hperm.cons a)

/-- Fields of an updated node. -/
theorem node_child_fields (nx nz : Int) (g h f : Nat) (par : Node) :
    (Node.child nx nz g h f par).x = nx ∧ (Node.child nx nz g h f par).z = nz ∧
    (Node.child nx nz g h f par).g = g ∧ (Node.child nx nz g h f par).h = h ∧
    (Node.child nx nz g h f par).f = f ∧
    (Node.child nx nz g h f par).cell = ⟨nx, nz⟩ ∧
    reconstructPath (Node.child nx nz g h f par) = reconstructPath par ++ [⟨nx, nz⟩] := by
  simp [Node.x, Node.z, Node.g, Node.h, Node.f, Node.cell, reconstructPath]

/-- `improveFirst` misses exactly when no open node has the cell. -/
theorem improveFirst_eq_none {nx nz : Int} {g f : Nat} {par : Node} {l : List Node} :
    improveFirst nx nz g f par l = none ↔ ∀ n ∈ l, ¬(n.x = nx ∧ n.z = nz) := by
  induction l with
  | nil => simp [improveFirst]
  | cons n rest ih =>
    by_cases hx : n.x = nx ∧ n.z = nz
    · simp [improveFirst, hx]
    · simp only [improveFirst, if_neg hx, Option.map_eq_none', ih, List.mem_cons]
      constructor
      · intro ha
        intro m hm
        rcases hm with rfl | hm2
        · exact hx
        · exact ha m hm2
      · intro ha m hm
        exact ha m (Or.inr hm)

/-- An in-place improvement leaves the open set's cell sequence as it
was. -/
theorem improveFirst_map_cell {nx nz : Int} {g f : Nat} {par : Node} {l out : List Node}
    (h : improveFirst nx nz g f par l = some out) :
    out.map Node.cell = l.map Node.cell := by
  induction l generalizing out with
  | nil => simp [improveFirst] at h
  | cons n rest ih =>
    by_cases hx : n.x = nx ∧ n.z = nz
    · simp only [improveFirst, if_pos hx] at h
      cases h
      by_cases hg : g < n.g
      · simp only [if_pos hg, List.map_cons, List.cons.injEq]
        refine ⟨?_, trivial⟩
        rw [(node_child_fields nx nz g n.h f par).2.2.2.2.2.1]
        simp [Node.cell, hx.1, hx.2]
      · simp [hg]
    · simp only [improveFirst, if_neg hx, Option.map_eq_some'] at h
      obtain ⟨out2, h2, rfl⟩ := h
      simp [ih h2]

/-- Membership in an improvement output: each node is an original one, or
the replacement of an original node at the improved cell. -/
theorem improveFirst_mem {nx nz : Int} {g f : Nat} {par : Node} {l out : List Node}
    (h : improveFirst nx nz g f par l = some out) :
    ∀ m ∈ out, m ∈ l ∨ ∃ n ∈ l, n.x = nx ∧ n.z = nz ∧ g < n.g ∧
      m = Node.child nx nz g n.h f par := by
  induction l generalizing out with
  | nil => simp [improveFirst] at h
  | cons n rest ih =>
    by_cases hx : n.x = nx ∧ n.z = nz
    · simp only [improveFirst, if_pos hx] at h
      cases h
      intro m hm
      by_cases hg : g < n.g
      · simp only [if_pos hg, List.mem_cons] at hm
        rcases hm with rfl | hm2
        · exact Or.inr ⟨n, List.mem_cons_self n rest, hx.1, hx.2, hg, rfl⟩
        · exact Or.inl (List.mem_cons_of_mem n hm2)
      · simp only [if_neg hg] at hm
        exact Or.inl hm
    · simp only [improveFirst, if_neg hx, Option.map_eq_some'] at h
      obtain ⟨out2, h2, rfl⟩ := h
      intro m hm
      rcases List.mem_cons.mp hm with rfl | hm2
      · exact Or.inl (List.mem_cons_self m rest)
      · rcases ih h2 m hm2 with h3 | ⟨n2, hn2, hrest⟩
        · exact Or.inl (List.mem_cons_of_mem n h3)
        · exact Or.inr ⟨n2, List.mem_cons_of_mem n hn2, hrest⟩

/-- An improvement can only lower the recorded cost of a cell's open
entry, so a cost-bound witness survives it. -/
theorem improveFirst_wpres {nx nz : Int} {g f : Nat} {par : Node} {l out : List Node}
    (h : improveFirst nx nz g f par l = some out) (c : PathPoint) (B : Nat)
    (hw : ∃ n ∈ l, n.cell = c ∧ n.g ≤ B) : ∃ n ∈ out, n.cell = c ∧ n.g ≤ B := by
  induction l generalizing out with
  | nil => simp [improveFirst] at h
  | cons n rest ih =>
    by_cases hx : n.x = nx ∧ n.z = nz
    · simp only [improveFirst, if_pos hx] at h
      cases h
      obtain ⟨m, hm, hcell, hB⟩ := hw
      rcases List.mem_cons.mp hm with rfl | hm2
      · by_cases hg : g < m.g
        · refine ⟨Node.child nx nz g m.h f par, by simp [hg], ?_, ?_⟩
          · rw [(node_child_fields nx nz g m.h f par).2.2.2.2.2.1, ← hcell]
            simp [Node.cell, hx.1, hx.2]
          · rw [(node_child_fields nx nz g m.h f par).2.2.1]
            omega
        · exact ⟨m, by simp [hg], hcell, hB⟩
      · by_cases hg : g < n.g
        · exact ⟨m, by simp [hg, List.mem_cons_of_mem _ hm2], hcell, hB⟩
        · exact ⟨m, by simp [hg, List.mem_cons_of_mem _ hm2], hcell, hB⟩
    · simp only [improveFirst, if_neg hx, Option.map_eq_some'] at h
      obtain ⟨out2, h2, rfl⟩ := h
      obtain ⟨m, hm, hcell, hB⟩ := hw
      rcases List.mem_cons.mp hm with rfl | hm2
      · exact ⟨m, List.mem_cons_self m out2, hcell, hB⟩
      · obtain ⟨m2, hm2b, hcell2, hB2⟩ := ih h2 ⟨m, hm2, hcell, hB⟩
        exact ⟨m2, List.mem_cons_of_mem n hm2b, hcell2, hB2⟩

/-- After an improvement at a cell, the open set holds an entry for it of
cost at most the offered `g`. -/
theorem improveFirst_creates {nx nz : Int} {g f : Nat} {par : Node} {l out : List Node}
    (h : improveFirst nx nz g f par l = some out) :
    ∃ n ∈ out, n.cell = ⟨nx, nz⟩ ∧ n.g ≤ g := by
  induction l generalizing out with
  | nil => simp [improveFirst] at h
  | cons n rest ih =>
    by_cases hx : n.x = nx ∧ n.z = nz
    · simp only [improveFirst, if_pos hx] at h
      cases h
      by_cases hg : g < n.g
      · refine ⟨Node.child nx nz g n.h f par, by simp [hg], ?_, ?_⟩
        · exact (node_child_fields nx nz g n.h f par).2.2.2.2.2.1
        · rw [(node_child_fields nx nz g n.h f par).2.2.1]
      · exact ⟨n, by simp [hg], by simp [Node.cell, hx.1, hx.2], not_lt.mp hg⟩
    · simp only [improveFirst, if_neg hx, Option.map_eq_some'] at h
      obtain ⟨out2, h2, rfl⟩ := h
      obtain ⟨m, hm, hcell, hB⟩ := ih h2
      exact ⟨m, List.mem_cons_of_mem n hm, hcell, hB⟩

/-- The one-cell route at an unblocked cell is valid. -/
theorem validPath_single {p : Pathfinder} {s : PathPoint}
    (h : p.isBlocked s.x s.z = false) : ValidPath p s s [s] := by
  refine ⟨by simp, by simp, by simp, List.chain'_singleton s, ?_⟩
  intro c hc
  rw [List.mem_singleton] at hc
  rw [hc]
  exact h

/-- A valid route extends by one unblocked cardinal step. -/
theorem validPath_extend {p : Pathfinder} {s c d : PathPoint} {l : List PathPoint}
    (hv : ValidPath p s c l) (hstep : isStep c d)
    (hbl : p.isBlocked d.x d.z = false) : ValidPath p s d (l ++ [d]) := by
  obtain ⟨hne, hhead, hlast, hchain, hcl⟩ := hv
  refine ⟨by simp, ?_, List.getLast?_concat l, ?_, ?_⟩
  · cases l with
    | nil => exact absurd rfl hne
    | cons a l2 => simpa using hhead
  · rw [List.chain'_append]
    refine ⟨hchain, List.chain'_singleton d, ?_⟩
    intro x hx y hy
    rw [hlast] at hx
    cases hx
    simp only [List.head?_cons, Option.mem_def, Option.some.injEq] at hy
    rw [← hy]
    exact hstep
  · intro e he
    rcases List.mem_append.mp he with h1 | h2
    · exact hcl e h1
    · rw [List.mem_singleton] at h2
      rw [h2]
      exact hbl

/-- Improving a neighbor entry preserves every open node's soundness. -/
theorem improveFirst_nodeOk {p : Pathfinder} {s goal : PathPoint}
    {closed1 : List PathPoint} {cur : Node} {nb : Int × Int} {l out : List Node}
    (h : improveFirst nb.1 nb.2 (cur.g + 1)
      (cur.g + 1 + heuristic nb.1 nb.2 goal.x goal.z) cur l = some out)
    (hl : ∀ n ∈ l, nodeOk p s goal closed1 n)
    (hcurv : ValidPath p s cur.cell (reconstructPath cur))
    (hcurlen : (reconstructPath cur).length = cur.g + 1)
    (hstep : isStep cur.cell ⟨nb.1, nb.2⟩)
    (hbl : p.isBlocked nb.1 nb.2 = false)
    (hncl : (⟨nb.1, nb.2⟩ : PathPoint) ∉ closed1) :
    ∀ m ∈ out, nodeOk p s goal closed1 m := by
  intro m hm
  rcases improveFirst_mem h m hm with hold | ⟨n, hn, hnx, hnz, _, rfl⟩
  · exact hl m hold
  · obtain ⟨f1, f2, f3, f4, f5, f6, f7⟩ :=
      node_child_fields nb.1 nb.2 (cur.g + 1) n.h
        (cur.g + 1 + heuristic nb.1 nb.2 goal.x goal.z) cur
    have hncell : n.cell = ⟨nb.1, nb.2⟩ := by
      simp [Node.cell, hnx, hnz]
    obtain ⟨_, _, hh, _, _⟩ := hl n hn
    refine ⟨?_, ?_, ?_, ?_, ?_⟩
    · rw [f6, f7]
      exact validPath_extend hcurv hstep hbl
    · rw [f7, f3, List.length_append, hcurlen, List.length_singleton]
    · rw [f4, f6, hh, hncell]
    · rw [f5, f3, f4, hh, hncell]
      simp [hdist]
    · rw [f6]
      exact hncl

/-- One neighbor pass preserves every open node's soundness. -/
theorem processNeighbor_nodeOk {p : Pathfinder} {s goal : PathPoint}
    {closed1 : List PathPoint} {cur : Node} {acc : List Node} {nb : Int × Int}
    (hacc : ∀ n ∈ acc, nodeOk p s goal closed1 n)
    (hcurv : ValidPath p s cur.cell (reconstructPath cur))
    (hcurlen : (reconstructPath cur).length = cur.g + 1)
    (hstep : isStep cur.cell ⟨nb.1, nb.2⟩) :
    ∀ m ∈ processNeighbor p closed1 cur goal.x goal.z acc nb,
      nodeOk p s goal closed1 m := by
  unfold processNeighbor
  by_cases h1 : (⟨nb.1, nb.2⟩ : PathPoint) ∈ closed1
  · simpa [h1] using hacc
  · by_cases h2 : p.isBlocked nb.1 nb.2 = true
    · simpa [h1, h2] using hacc
    · have hbl : p.isBlocked nb.1 nb.2 = false := by
        cases hb : p.isBlocked nb.1 nb.2
        · rfl
        · exact absurd hb h2
      simp only [h1, if_false, hbl, Bool.false_eq_true]
      cases him : improveFirst nb.1 nb.2 (cur.g + 1)
          (cur.g + 1 + heuristic nb.1 nb.2 goal.x goal.z) cur acc with
      | some updated =>
        simpa using improveFirst_nodeOk him hacc hcurv hcurlen hstep hbl h1
      | none =>
        simp only []
        intro m hm
        rcases List.mem_append.mp hm with hold | hnew
        · exact hacc m hold
        · rw [List.mem_singleton] at hnew
          subst hnew
          obtain ⟨f1, f2, f3, f4, f5, f6, f7⟩ :=
            node_child_fields nb.1 nb.2 (cur.g + 1)
              (heuristic nb.1 nb.2 goal.x goal.z)
              (cur.g + 1 + heuristic nb.1 nb.2 goal.x goal.z) cur
          refine ⟨?_, ?_, ?_, ?_, ?_⟩
          · rw [f6, f7]
            exact validPath_extend hcurv hstep hbl
          · rw [f7, f3, List.length_append, hcurlen, List.length_singleton]
          · rw [f4, f6]
            simp [hdist]
          · rw [f5, f3, f4]
          · rw [f6]
            exact h1

/-- One neighbor pass keeps every cost-bound witness. -/
theorem processNeighbor_wpres {p : Pathfinder} {closed1 : List PathPoint}
    {cur : Node} {gx gz : Int} {acc : List Node} {nb : Int × Int}
    (c : PathPoint) (B : Nat) (hw : ∃ n ∈ acc, n.cell = c ∧ n.g ≤ B) :
    ∃ n ∈ processNeighbor p closed1 cur gx gz acc nb, n.cell = c ∧ n.g ≤ B := by
  unfold processNeighbor
  by_cases h1 : (⟨nb.1, nb.2⟩ : PathPoint) ∈ closed1
  · simpa [h1] using hw
  · by_cases h2 : p.isBlocked nb.1 nb.2 = true
    · simpa [h1, h2] using hw
    · have hbl : p.isBlocked nb.1 nb.2 = false := by
        cases hb : p.isBlocked nb.1 nb.2
        · rfl
        · exact absurd hb h2
      simp only [h1, if_false, hbl, Bool.false_eq_true]
      cases him : improveFirst nb.1 nb.2 (cur.g + 1)
          (cur.g + 1 + heuristic nb.1 nb.2 gx gz) cur acc with
      | some updated => simpa using improveFirst_wpres him c B hw
      | none =>
        obtain ⟨n, hn, hcell, hB⟩ := hw
        exact ⟨n, List.mem_append.mpr (Or.inl hn), hcell, hB⟩

/-- After its own neighbor pass, an unblocked non-closed neighbor cell
has an open entry of cost at most `cur.g + 1`. -/
theorem processNeighbor_creates {p : Pathfinder} {closed1 : List PathPoint}
    {cur : Node} {gx gz : Int} {acc : List Node} {nb : Int × Int}
    (hncl : (⟨nb.1, nb.2⟩ : PathPoint) ∉ closed1)
    (hbl : p.isBlocked nb.1 nb.2 = false) :
    ∃ n ∈ processNeighbor p closed1 cur gx gz acc nb,
      n.cell = ⟨nb.1, nb.2⟩ ∧ n.g ≤ cur.g + 1 := by
  unfold processNeighbor
  simp only [hncl, if_false, hbl, Bool.false_eq_true]
  cases him : improveFirst nb.1 nb.2 (cur.g + 1)
      (cur.g + 1 + heuristic nb.1 nb.2 gx gz) cur acc with
  | some updated => simpa using improveFirst_creates him
  | none =>
    refine ⟨Node.child nb.1 nb.2 (cur.g + 1) (heuristic nb.1 nb.2 gx gz)
      (cur.g + 1 + heuristic nb.1 nb.2 gx gz) cur, ?_, ?_, ?_⟩
    · simp
    · exact (node_child_fields _ _ _ _ _ _).2.2.2.2.2.1
    · rw [(node_child_fields nb.1 nb.2 (cur.g + 1) _ _ cur).2.2.1]

/-- One neighbor pass keeps open cells pairwise distinct. -/
theorem processNeighbor_nodup {p : Pathfinder} {closed1 : List PathPoint}
    {cur : Node} {gx gz : Int} {acc : List Node} {nb : Int × Int}
    (h : (acc.map Node.cell).Nodup) :
    ((processNeighbor p closed1 cur gx gz acc nb).map Node.cell).Nodup := by
  unfold processNeighbor
  by_cases h1 : (⟨nb.1, nb.2⟩ : PathPoint) ∈ closed1
  · simpa [h1] using h
  · by_cases h2 : p.isBlocked nb.1 nb.2 = true
    · simpa [h1, h2] using h
    · have hbl : p.isBlocked nb.1 nb.2 = false := by
        cases hb : p.isBlocked nb.1 nb.2
        · rfl
        · exact absurd hb h2
      simp only [h1, if_false, hbl, Bool.false_eq_true]
      cases him : improveFirst nb.1 nb.2 (cur.g + 1)
          (cur.g + 1 + heuristic nb.1 nb.2 gx gz) cur acc with
      | some updated => simpa [improveFirst_map_cell him] using h
      | none =>
        have hmiss := improveFirst_eq_none.mp him
        simp only [List.map_append, List.map_cons, List.map_nil]
        rw [List.nodup_append]
        refine ⟨h, List.nodup_singleton _, ?_⟩
        intro c hc hc2
        rw [(node_child_fields nb.1 nb.2 (cur.g + 1) _ _ cur).2.2.2.2.2.1] at hc2
        simp only [List.mem_singleton] at hc2
        obtain ⟨n, hn, hcell⟩ := List.mem_map.mp hc
        apply hmiss n hn
        rw [hc2] at hcell
        constructor
        · have := congrArg PathPoint.x hcell
          simpa [Node.cell] using this
        · have := congrArg PathPoint.z hcell
          simpa [Node.cell] using this

/-- Folding the neighbor pass over any offset list preserves open-node
soundness. -/
theorem foldl_processNeighbor_nodeOk {p : Pathfinder} {s goal : PathPoint}
    {closed1 : List PathPoint} {cur : Node}
    (hcurv : ValidPath p s cur.cell (reconstructPath cur))
    (hcurlen : (reconstructPath cur).length = cur.g + 1) :
    ∀ (nbs : List (Int × Int)) (acc : List Node),
      (∀ nb ∈ nbs, isStep cur.cell ⟨nb.1, nb.2⟩) →
      (∀ n ∈ acc, nodeOk p s goal closed1 n) →
      ∀ m ∈ nbs.foldl (processNeighbor p closed1 cur goal.x goal.z) acc,
        nodeOk p s goal closed1 m := by
  intro nbs
  induction nbs with
  | nil => intro acc _ hacc m hm; exact hacc m hm
  | cons nb rest ih =>
    intro acc hsteps hacc m hm
    rw [List.foldl_cons] at hm
    exact ih _ (fun b hb => hsteps b (List.mem_cons_of_mem nb hb))
      (processNeighbor_nodeOk hacc hcurv hcurlen
        (hsteps nb (List.mem_cons_self nb rest))) m hm

/-- Folding the neighbor pass keeps every cost-bound witness. -/
theorem foldl_processNeighbor_wpres {p : Pathfinder} {closed1 : List PathPoint}
    {cur : Node} {gx gz : Int} :
    ∀ (nbs : List (Int × Int)) (acc : List Node) (c : PathPoint) (B : Nat),
      (∃ n ∈ acc, n.cell = c ∧ n.g ≤ B) →
      ∃ n ∈ nbs.foldl (processNeighbor p closed1 cur gx gz) acc,
        n.cell = c ∧ n.g ≤ B := by
  intro nbs
  induction nbs with
  | nil => intro acc c B hw; exact hw
  | cons nb rest ih =>
    intro acc c B hw
    rw [List.foldl_cons]
    exact ih _ c B (processNeighbor_wpres c B hw)

/-- Folding the neighbor pass keeps open cells pairwise distinct. -/
theorem foldl_processNeighbor_nodup {p : Pathfinder} {closed1 : List PathPoint}
    {cur : Node} {gx gz : Int} :
    ∀ (nbs : List (Int × Int)) (acc : List Node),
      (acc.map Node.cell).Nodup →
      ((nbs.foldl (processNeighbor p closed1 cur gx gz) acc).map Node.cell).Nodup := by
  intro nbs
  induction nbs with
  | nil => intro acc h; exact h
  | cons nb rest ih =>
    intro acc h
    rw [List.foldl_cons]
    exact ih _ (processNeighbor_nodup h)

/-- After the whole neighbor fold, every unblocked non-closed neighbor
cell has an open entry of cost at most `cur.g + 1`. -/
theorem foldl_processNeighbor_creates {p : Pathfinder} {closed1 : List PathPoint}
    {cur : Node} {gx gz : Int} :
    ∀ (nbs : List (Int × Int)) (acc : List Node) (nb : Int × Int),
      nb ∈ nbs →
      (⟨nb.1, nb.2⟩ : PathPoint) ∉ closed1 →
      p.isBlocked nb.1 nb.2 = false →
      ∃ n ∈ nbs.foldl (processNeighbor p closed1 cur gx gz) acc,
        n.cell = ⟨nb.1, nb.2⟩ ∧ n.g ≤ cur.g + 1 := by
  intro nbs
  induction nbs with
  | nil => intro acc nb hnb; exact absurd hnb (List.not_mem_nil nb)
  | cons b rest ih =>
    intro acc nb hnb hncl hbl
    rw [List.foldl_cons]
    rcases List.mem_cons.mp hnb with rfl | hnb2
    · exact foldl_processNeighbor_wpres rest _ _ _
        (processNeighbor_creates hncl hbl)
    · exact ih _ nb hnb2 hncl hbl

/-- Every valid route witnesses reachability in its step count. -/
theorem reach_of_validPath {p : Pathfinder} {s : PathPoint} :
    ∀ {l : List PathPoint} {t : PathPoint}, ValidPath p s t l →
      Reach p s t (l.length - 1) := by
  intro l
  induction l using List.reverseRecOn with
  | nil => intro t hv; exact absurd rfl hv.1
  | append_singleton l a ih =>
    intro t hv
    obtain ⟨hne, hhead, hlast, hchain, hcl⟩ := hv
    rw [List.getLast?_concat] at hlast
    injection hlast with hat
    cases hat
    cases hl : l with
    | nil =>
      subst hl
      simp only [List.nil_append, List.head?_cons, Option.some.injEq] at hhead
      cases hhead
      simpa using Reach.base (hcl s (by simp))
    | cons b l2 =>
      have hlne : l ≠ [] := by rw [hl]; exact List.cons_ne_nil b l2
      obtain ⟨hchl, _, hrel⟩ := List.chain'_append.mp hchain
      have hlastl : l.getLast? = some (l.getLast hlne) := List.getLast?_eq_getLast l hlne
      have hstep : isStep (l.getLast hlne) a := by
        apply hrel
        · rw [hlastl]; rfl
        · rfl
      have hvl : ValidPath p s (l.getLast hlne) l := by
        refine ⟨hlne, ?_, hlastl, hchl, ?_⟩
        · rw [← hhead, hl]
          simp
        · intro c hc
          exact hcl c (List.mem_append.mpr (Or.inl hc))
      have hreach := ih hvl
      have hlen : l.length - 1 + 1 = l.length :=
        Nat.succ_pred_eq_of_pos (List.length_pos.mpr hlne)
      have hstepr := Reach.step hreach hstep
        (hcl a (List.mem_append.mpr (Or.inr (by simp))))
      rw [hlen, hl] at hstepr
      simpa using hstepr

/-- Frontier coverage: any reachable not-yet-closed cell is covered by an
open node whose `f`-value is at most the route cost plus the goal
heuristic of the route's endpoint. -/
theorem AInv.front {p : Pathfinder} {s goal : PathPoint} {opn : List Node}
    {closed : List PathPoint} {D : PathPoint → Nat}
    (inv : AInv p s goal opn closed D) :
    ∀ {t : PathPoint} {k : Nat}, Reach p s t k → t ∉ closed →
      ∃ n ∈ opn, n.g + hdist n.cell goal ≤ k + hdist t goal := by
  intro t k hreach
  induction hreach with
  | base hb =>
    intro htcl
    rcases inv.start with hs | ⟨n, hn, hcell, hg⟩
    · exact absurd hs htcl
    · exact ⟨n, hn, le_of_eq (by rw [hcell, hg])⟩
  | @step c d k2 hrc hstep hbl ih =>
    intro hdcl
    by_cases hccl : c ∈ closed
    · have hDc := inv.opt c hccl k2 hrc
      rcases inv.frontier c hccl d hstep hbl with hdc | ⟨n, hn, hcell, hg⟩
      · exact absurd hdc hdcl
      · exact ⟨n, hn, by rw [hcell]; omega⟩
    · obtain ⟨n, hn, hle⟩ := ih hccl
      have hcons := hdist_step_le goal hstep
      exact ⟨n, hn, by omega⟩

/-- The node the scan pops carries an optimal cost for its cell. -/
theorem AInv.popOpt {p : Pathfinder} {s goal : PathPoint} {opn : List Node}
    {closed : List PathPoint} {D : PathPoint → Nat}
    (inv : AInv p s goal opn closed D) {cur : Node} (hcur : cur ∈ opn)
    (hmin : ∀ m ∈ opn, cur.f ≤ m.f) {k : Nat}
    (hreach : Reach p s cur.cell k) : cur.g ≤ k := by
  obtain ⟨_, _, hh, hf, hncl⟩ := inv.node cur hcur
  obtain ⟨n, hn, hle⟩ := inv.front hreach hncl
  obtain ⟨_, _, hh2, hf2, _⟩ := inv.node n hn
  have hm := hmin n hn
  omega

/-- One loop iteration preserves the invariant: pop the minimal node,
close its cell, record its cost in the ghost map, process the four
neighbors. -/
theorem AInv.step_inv {p : Pathfinder} {s goal : PathPoint} {opn : List Node}
    {closed : List PathPoint} {D : PathPoint → Nat}
    (inv : AInv p s goal opn closed D) {cur : Node} {rest : List Node}
    (hperm : (cur :: rest).Perm opn)
    (hmin : ∀ m ∈ opn, cur.f ≤ m.f) :
    AInv p s goal
      ((neighborsOf cur).foldl
        (processNeighbor p (cur.cell :: closed) cur goal.x goal.z) rest)
      (cur.cell :: closed)
      (fun c => if c = cur.cell then cur.g else D c) := by
  have hcur : cur ∈ opn := hperm.subset (List.mem_cons_self cur rest)
  obtain ⟨hcurv, hcurlen, hcurh, hcurf, hcurncl⟩ := inv.node cur hcur
  have hmapperm : ((cur :: rest).map Node.cell).Perm (opn.map Node.cell) :=
    hperm.map Node.cell
  have hnodup2 : ((cur :: rest).map Node.cell).Nodup :=
    (hmapperm.nodup_iff).mpr inv.nodup
  rw [List.map_cons] at hnodup2
  have hcellnotin : cur.cell ∉ rest.map Node.cell := (List.nodup_cons.mp hnodup2).1
  have hrestnodup : (rest.map Node.cell).Nodup := (List.nodup_cons.mp hnodup2).2
  have hrest_mem : ∀ n ∈ rest, n ∈ opn :=
    fun n hn => hperm.subset (List.mem_cons_of_mem cur hn)
  have hrest_ncur : ∀ n ∈ rest, n.cell ≠ cur.cell := by
    intro n hn heq
    exact hcellnotin (heq ▸ List.mem_map_of_mem Node.cell hn)
  have hsurvive : ∀ m ∈ opn, m.cell ≠ cur.cell → m ∈ rest := by
    intro m hm hne
    rcases List.mem_cons.mp (hperm.mem_iff.mpr hm) with rfl | h2
    · exact absurd rfl hne
    · exact h2
  have hrest_ok : ∀ n ∈ rest, nodeOk p s goal (cur.cell :: closed) n := by
    intro n hn
    obtain ⟨h1, h2, h3, h4, h5⟩ := inv.node n (hrest_mem n hn)
    refine ⟨h1, h2, h3, h4, ?_⟩
    intro hmem
    rcases List.mem_cons.mp hmem with heq | hin
    · exact hrest_ncur n hn heq
    · exact h5 hin
  have hsteps : ∀ nb ∈ neighborsOf cur, isStep cur.cell ⟨nb.1, nb.2⟩ :=
    fun nb hnb => neighborsOf_isStep hnb
  have hD1closed : ∀ c ∈ closed, (if c = cur.cell then cur.g else D c) = D c := by
    intro c hc
    rw [if_neg]
    intro heq
    exact hcurncl (heq ▸ hc)
  refine ⟨?_, ?_, ?_, ?_, ?_, ?_⟩
  · exact foldl_processNeighbor_nodeOk hcurv hcurlen (neighborsOf cur) rest hsteps hrest_ok
  · exact foldl_processNeighbor_nodup (neighborsOf cur) rest hrestnodup
  · intro c hc
    rcases List.mem_cons.mp hc with rfl | hcin
    · rw [if_pos rfl]
      have hr := reach_of_validPath hcurv
      rw [hcurlen] at hr
      simpa using hr
    · rw [hD1closed c hcin]
      exact inv.reach c hcin
  · intro c hc k hk
    rcases List.mem_cons.mp hc with rfl | hcin
    · rw [if_pos rfl]
      exact inv.popOpt hcur hmin hk
    · rw [hD1closed c hcin]
      exact inv.opt c hcin k hk
  · intro c hc d hstep hbl
    rcases List.mem_cons.mp hc with rfl | hcin
    · by_cases hdcl : d ∈ cur.cell :: closed
      · exact Or.inl hdcl
      · refine Or.inr ?_
        have hmem := isStep_mem_neighborsOf hstep
        obtain ⟨n, hn, hcell, hg⟩ :=
          foldl_processNeighbor_creates (neighborsOf cur) rest (d.x, d.z)
            hmem hdcl hbl
        rw [if_pos rfl]
        exact ⟨n, hn, hcell, hg⟩
    · rw [hD1closed c hcin]
      rcases inv.frontier c hcin d hstep hbl with hdin | ⟨n, hn, hcell, hg⟩
      · exact Or.inl (List.mem_cons_of_mem _ hdin)
      · by_cases hdc : d = cur.cell
        · exact Or.inl (by rw [hdc]; exact List.mem_cons_self _ _)
        · refine Or.inr ?_
          have hnrest : n ∈ rest := hsurvive n hn (by rw [hcell]; exact hdc)
          exact foldl_processNeighbor_wpres (neighborsOf cur) rest d (D c + 1)
            ⟨n, hnrest, hcell, hg⟩
  · rcases inv.start with hs | ⟨n, hn, hcell, hg⟩
    · exact Or.inl (List.mem_cons_of_mem _ hs)
    · by_cases hsc : s = cur.cell
      · exact Or.inl (by rw [hsc]; exact List.mem_cons_self _ _)
      · refine Or.inr ?_
        have hnrest : n ∈ rest := hsurvive n hn (by rw [hcell]; exact hsc)
        obtain ⟨m, hm, hc2, hg2⟩ := foldl_processNeighbor_wpres (neighborsOf cur)
          rest s 0 ⟨n, hnrest, hcell, le_of_eq hg⟩
        exact ⟨m, hm, hc2, Nat.le_zero.mp hg2⟩

/-- Soundness of the A* loop: under the invariant, any returned path is a
valid route from the start to the goal no longer than any reachability
witness. -/
theorem astarLoop_sound {p : Pathfinder} {s goal : PathPoint} :
    ∀ (fuel : Nat) (opn : List Node) (closed : List PathPoint)
      (D : PathPoint → Nat) (path : List PathPoint),
      AInv p s goal opn closed D →
      astarLoop p goal.x goal.z fuel opn closed = some path →
      ValidPath p s goal path ∧ ∀ k, Reach p s goal k → path.length ≤ k + 1 := by
  intro fuel
  induction fuel with
  | zero =>
    intro opn closed D path _ h
    simp [astarLoop] at h
  | succ fuel ih =>
    intro opn closed D path hinv h
    cases opn with
    | nil => simp [astarLoop] at h
    | cons a rest0 =>
      obtain ⟨hidx, hmin⟩ := minFIndex_spec (a :: rest0) (List.cons_ne_nil a rest0)
      have hperm := getD_cons_eraseIdx_perm (a :: rest0) (minFIndex (a :: rest0)) hidx
      have hmin2 : ∀ m ∈ a :: rest0,
          ((a :: rest0).getD (minFIndex (a :: rest0)) dfltNode).f ≤ m.f := hmin
      by_cases hgoal : ((a :: rest0).getD (minFIndex (a :: rest0)) dfltNode).x = goal.x ∧
          ((a :: rest0).getD (minFIndex (a :: rest0)) dfltNode).z = goal.z
      · have hcell : ((a :: rest0).getD (minFIndex (a :: rest0)) dfltNode).cell = goal := by
          unfold Node.cell
          rw [hgoal.1, hgoal.2]
        have hpath : path = reconstructPath ((a :: rest0).getD (minFIndex (a :: rest0)) dfltNode) := by
          simp only [astarLoop, hgoal, and_self, if_true] at h
          exact (Option.some.injEq _ _).mp h.symm
        have hcur : (a :: rest0).getD (minFIndex (a :: rest0)) dfltNode ∈ a :: rest0 :=
          hperm.subset (List.mem_cons_self _ _)
        obtain ⟨hv, hlen, _, _, _⟩ := hinv.node _ hcur
        subst hpath
        constructor
        · rw [← hcell]
          exact hv
        · intro k hk
          rw [← hcell] at hk
          have := hinv.popOpt hcur hmin2 hk
          omega
      · have h2 : astarLoop p goal.x goal.z fuel
            ((neighborsOf ((a :: rest0).getD (minFIndex (a :: rest0)) dfltNode)).foldl
              (processNeighbor p (((a :: rest0).getD (minFIndex (a :: rest0)) dfltNode).cell :: closed)
                ((a :: rest0).getD (minFIndex (a :: rest0)) dfltNode) goal.x goal.z)
              ((a :: rest0).eraseIdx (minFIndex (a :: rest0))))
            (((a :: rest0).getD (minFIndex (a :: rest0)) dfltNode).cell :: closed) = some path := by
          simpa only [astarLoop, hgoal, if_false] using h
        exact ih _ _ _ path (hinv.step_inv hperm hmin2) h2

/-- Soundness of `findPathInt`: a returned path is a valid route from
start to goal, no longer than any reachability witness. -/
theorem findPathInt_sound {p : Pathfinder} {sx sz gx gz : Int} {n : Nat}
    {path : List PathPoint} (h : findPathInt p sx sz gx gz n = some path) :
    ValidPath p ⟨sx, sz⟩ ⟨gx, gz⟩ path ∧
      ∀ k, Reach p ⟨sx, sz⟩ ⟨gx, gz⟩ k → path.length ≤ k + 1 := by
  unfold findPathInt at h
  by_cases h1 : p.isBlocked gx gz = true
  · simp [h1] at h
  · have h1f : p.isBlocked gx gz = false := by
      cases hb : p.isBlocked gx gz
      · rfl
      · exact absurd hb h1
    by_cases h2 : p.isBlocked sx sz = true
    · simp [h1f, h2] at h
    · have h2f : p.isBlocked sx sz = false := by
        cases hb : p.isBlocked sx sz
        · rfl
        · exact absurd hb h2
      by_cases h3 : sx = gx ∧ sz = gz
      · have hpath : path = [⟨gx, gz⟩] := by
          simp only [h1f, h2f, Bool.false_eq_true, if_false, h3, and_self, if_true] at h
          exact (Option.some.injEq _ _).mp h.symm
        subst hpath
        have hsg : (⟨sx, sz⟩ : PathPoint) = ⟨gx, gz⟩ := by
          rw [h3.1, h3.2]
        constructor
        · rw [hsg]
          exact validPath_single h1f
        · intro k _
          simp
      · have h4 : astarLoop p gx gz n
            [Node.root sx sz 0 (heuristic sx sz gx gz)
              (0 + heuristic sx sz gx gz)] [] = some path := by
          simpa only [h1f, h2f, Bool.false_eq_true, if_false, h3] using h
        have hinv : AInv p ⟨sx, sz⟩ ⟨gx, gz⟩
            [Node.root sx sz 0 (heuristic sx sz gx gz) (0 + heuristic sx sz gx gz)]
            [] (fun _ => 0) := by
          refine ⟨?_, by simp, by simp, by simp, by simp, ?_⟩
          · intro m hm
            rw [List.mem_singleton] at hm
            subst hm
            refine ⟨?_, ?_, ?_, ?_, ?_⟩
            · show ValidPath p ⟨sx, sz⟩ _ _
              simp only [Node.cell, Node.x, Node.z, reconstructPath]
              exact validPath_single h2f
            · simp [reconstructPath, Node.g]
            · simp [Node.h, hdist, Node.cell, Node.x, Node.z]
            · simp [Node.f, Node.g, Node.h]
            · simp
          · refine Or.inr ⟨_, List.mem_singleton_self _, ?_, ?_⟩
            · simp [Node.cell, Node.x, Node.z]
            · simp [Node.g]
        exact astarLoop_sound n _ _ _ path hinv h4

/-- Casting integer cells through the rational front door of `findPath`
reaches `findPathInt` unchanged. -/
theorem findPath_intCast (p : Pathfinder) (sx sz gx gz : Int) (n : Nat) :
    p.findPath (sx : ℚ) (sz : ℚ) (gx : ℚ) (gz : ℚ) n = findPathInt p sx sz gx gz n := by
  simp [Pathfinder.findPath]

/-- C1: for all integer start and goal cells, a path returned by
`findPath` is a shortest path: it is itself a valid route of unblocked
cardinal unit steps from start to goal, and no valid route is shorter
(its length minus one is the minimum step count), as guaranteed by A*
with the admissible Manhattan heuristic and uniform step cost 1. -/
theorem findPath_returns_shortest (p : Pathfinder) (sx sz gx gz : Int) (n : Nat)
    (path : List PathPoint)
    (h : p.findPath (sx : ℚ) (sz : ℚ) (gx : ℚ) (gz : ℚ) n = some path) :
    ValidPath p ⟨sx, sz⟩ ⟨gx, gz⟩ path ∧
      ∀ q, ValidPath p ⟨sx, sz⟩ ⟨gx, gz⟩ q → path.length ≤ q.length := by
  rw [findPath_intCast] at h
  obtain ⟨hv, hmin⟩ := findPathInt_sound h
  refine ⟨hv, ?_⟩
  intro q hq
  have hqne : q ≠ [] := hq.1
  have hqpos : 0 < q.length := List.length_pos.mpr hqne
  have hb := hmin _ (reach_of_validPath hq)
  omega

/-- C1 witness: on an empty grid the returned route from (0,0) to (2,0)
is valid, and the theorem applies with every hypothesis discharged. -/
theorem findPath_returns_shortest_witness :
    Pathfinder.findPath ⟨∅⟩ ((0 : Int) : ℚ) ((0 : Int) : ℚ) ((2 : Int) : ℚ)
        ((0 : Int) : ℚ) 1000 = some [⟨0, 0⟩, ⟨1, 0⟩, ⟨2, 0⟩] ∧
    ValidPath ⟨∅⟩ ⟨0, 0⟩ ⟨2, 0⟩ [⟨0, 0⟩, ⟨1, 0⟩, ⟨2, 0⟩] := by
  have hEval : Pathfinder.findPath ⟨∅⟩ ((0 : Int) : ℚ) ((0 : Int) : ℚ)
      ((2 : Int) : ℚ) ((0 : Int) : ℚ) 1000 = some [⟨0, 0⟩, ⟨1, 0⟩, ⟨2, 0⟩] := by
    rw [findPath_intCast]
    decide
  exact ⟨hEval, (findPath_returns_shortest ⟨∅⟩ 0 0 2 0 1000 _ hEval).1⟩

/-- C2: every consecutive pair of cells in a returned path differs by
exactly one unit in exactly one axis — 4-connected cardinal steps only,
no diagonal moves, no jumps. -/
theorem findPath_adjacency (p : Pathfinder) (sx sz gx gz : Int) (n : Nat)
    (path : List PathPoint)
    (h : p.findPath (sx : ℚ) (sz : ℚ) (gx : ℚ) (gz : ℚ) n = some path) :
    path.Chain' (fun a b => (a.x = b.x ∧ (b.z - a.z).natAbs = 1) ∨
      (a.z = b.z ∧ (b.x - a.x).natAbs = 1)) := by
  rw [findPath_intCast] at h
  obtain ⟨⟨_, _, _, hchain, _⟩, _⟩ := findPathInt_sound h
  refine hchain.imp ?_
  intro a b hab
  unfold isStep at hab
  omega

/-- C2 witness: the adjacency holds on the concrete returned route around
an obstacle. -/
theorem findPath_adjacency_witness :
    Pathfinder.findPath ⟨{(1, 0)}⟩ ((0 : Int) : ℚ) ((0 : Int) : ℚ) ((2 : Int) : ℚ)
        ((0 : Int) : ℚ) 1000
      = some [⟨0, 0⟩, ⟨0, -1⟩, ⟨1, -1⟩, ⟨2, -1⟩, ⟨2, 0⟩] ∧
    List.Chain' (fun a b : PathPoint => (a.x = b.x ∧ (b.z - a.z).natAbs = 1) ∨
        (a.z = b.z ∧ (b.x - a.x).natAbs = 1))
      [⟨0, 0⟩, ⟨0, -1⟩, ⟨1, -1⟩, ⟨2, -1⟩, ⟨2, 0⟩] := by
  have hEval : Pathfinder.findPath ⟨{(1, 0)}⟩ ((0 : Int) : ℚ) ((0 : Int) : ℚ)
      ((2 : Int) : ℚ) ((0 : Int) : ℚ) 1000
      = some [⟨0, 0⟩, ⟨0, -1⟩, ⟨1, -1⟩, ⟨2, -1⟩, ⟨2, 0⟩] := by
    rw [findPath_intCast]
    decide
  exact ⟨hEval, findPath_adjacency ⟨{(1, 0)}⟩ 0 0 2 0 1000 _ hEval⟩

/-- C3: a successful path's first cell is the start cell and its last the
goal cell; when start equals goal, the returned path is exactly the
one-element list holding that cell. -/
theorem findPath_endpoints (p : Pathfinder) (sx sz gx gz : Int) (n : Nat)
    (path : List PathPoint)
    (h : p.findPath (sx : ℚ) (sz : ℚ) (gx : ℚ) (gz : ℚ) n = some path) :
    path.head? = some ⟨sx, sz⟩ ∧ path.getLast? = some ⟨gx, gz⟩ ∧
      (sx = gx ∧ sz = gz → path = [⟨gx, gz⟩]) := by
  rw [findPath_intCast] at h
  obtain ⟨⟨_, hhead, hlast, _, _⟩, _⟩ := findPathInt_sound h
  refine ⟨hhead, hlast, ?_⟩
  intro hsg
  unfold findPathInt at h
  by_cases h1 : p.isBlocked gx gz = true
  · simp [h1] at h
  · have h1f : p.isBlocked gx gz = false := by
      cases hb : p.isBlocked gx gz
      · rfl
      · exact absurd hb h1
    rw [hsg.1, hsg.2] at h
    simp only [h1f, Bool.false_eq_true, if_false, and_self, if_true] at h
    exact ((Option.some.injEq _ _).mp h).symm

/-- C3 witness: endpoints on a concrete run, and the one-element path
when start equals goal. -/
theorem findPath_endpoints_witness :
    Pathfinder.findPath ⟨∅⟩ ((5 : Int) : ℚ) ((7 : Int) : ℚ) ((5 : Int) : ℚ)
        ((7 : Int) : ℚ) 1000 = some [⟨5, 7⟩] ∧
    [(⟨5, 7⟩ : PathPoint)].head? = some ⟨5, 7⟩ ∧
    [(⟨5, 7⟩ : PathPoint)].getLast? = some ⟨5, 7⟩ := by
  have hEval : Pathfinder.findPath ⟨∅⟩ ((5 : Int) : ℚ) ((7 : Int) : ℚ)
      ((5 : Int) : ℚ) ((7 : Int) : ℚ) 1000 = some [⟨5, 7⟩] := by
    rw [findPath_intCast]
    decide
  obtain ⟨hh, hl, _⟩ := findPath_endpoints ⟨∅⟩ 5 7 5 7 1000 _ hEval
  exact ⟨hEval, hh, hl⟩

/-- C4: `findPath` fails (returns `none`, never a partial path) when the
goal cell is blocked, when the start cell is blocked, and when no valid
route of unblocked cardinal steps exists (a successful result always
carries full start-to-goal endpoints); and on a failed request the path
follower arms the retry cooldown and clears the request flag — the tick
is a total function, nothing is thrown. -/
theorem findPath_failure_contract (p : Pathfinder) (sx sz gx gz : Int) (n : Nat)
    (posX posZ : ℚ) (pf : PathFollower) :
    (p.isBlocked gx gz = true →
      p.findPath (sx : ℚ) (sz : ℚ) (gx : ℚ) (gz : ℚ) n = none) ∧
    (p.isBlocked sx sz = true →
      p.findPath (sx : ℚ) (sz : ℚ) (gx : ℚ) (gz : ℚ) n = none) ∧
    ((¬ ∃ q, ValidPath p ⟨sx, sz⟩ ⟨gx, gz⟩ q) →
      p.findPath (sx : ℚ) (sz : ℚ) (gx : ℚ) (gz : ℚ) n = none) ∧
    (∀ path, p.findPath (sx : ℚ) (sz : ℚ) (gx : ℚ) (gz : ℚ) n = some path →
      path.head? = some ⟨sx, sz⟩ ∧ path.getLast? = some ⟨gx, gz⟩) ∧
    (pf.needsPath = true → pf.pathRetryTime ≤ 0 →
      p.findPath ((Pathfinder.worldToCell posX posZ).x : ℚ)
        ((Pathfinder.worldToCell posX posZ).z : ℚ)
        ((Pathfinder.worldToCell pf.targetX pf.targetZ).x : ℚ)
        ((Pathfinder.worldToCell pf.targetX pf.targetZ).z : ℚ) = none →
      (requestPath p posX posZ pf).pathRetryTime = PATH_RETRY_COOLDOWN ∧
      (requestPath p posX posZ pf).needsPath = false) := by
  refine ⟨?_, ?_, ?_, ?_, ?_⟩
  · intro hb
    rw [findPath_intCast]
    unfold findPathInt
    simp [hb]
  · intro hb
    rw [findPath_intCast]
    unfold findPathInt
    by_cases h1 : p.isBlocked gx gz = true
    · simp [h1]
    · simp [h1, hb]
  · intro hno
    cases hfp : p.findPath (sx : ℚ) (sz : ℚ) (gx : ℚ) (gz : ℚ) n with
    | none => rfl
    | some path =>
      rw [findPath_intCast] at hfp
      exact absurd ⟨path, (findPathInt_sound hfp).1⟩ hno
  · intro path h
    rw [findPath_intCast] at h
    obtain ⟨⟨_, hh, hl, _, _⟩, _⟩ := findPathInt_sound h
    exact ⟨hh, hl⟩
  · intro hneed hretry hnone
    unfold requestPath
    rw [if_pos ⟨hneed, hretry⟩]
    refine ⟨?_, ?_⟩ <;> simp [hnone]

/-- C4 witness: a blocked goal makes the concrete search fail, and the
follower's request step reacts by arming the cooldown and clearing the
flag. -/
theorem findPath_failure_contract_witness :
    Pathfinder.findPath ⟨{(5, 7)}⟩ ((0 : Int) : ℚ) ((0 : Int) : ℚ) ((5 : Int) : ℚ)
        ((7 : Int) : ℚ) 1000 = none ∧
    (requestPath ⟨{(5, 7)}⟩ 0 0 ⟨[], -1, 5, 7, 1, true, 0⟩).pathRetryTime
        = PATH_RETRY_COOLDOWN ∧
    (requestPath ⟨{(5, 7)}⟩ 0 0 ⟨[], -1, 5, 7, 1, true, 0⟩).needsPath = false := by
  have hblocked : (⟨{(5, 7)}⟩ : Pathfinder).isBlocked 5 7 = true := by decide
  have h1 := (findPath_failure_contract ⟨{(5, 7)}⟩ 0 0 5 7 1000 0 0
    ⟨[], -1, 5, 7, 1, true, 0⟩).1 hblocked
  have hcells : Pathfinder.findPath ⟨{(5, 7)}⟩
      ((Pathfinder.worldToCell 0 0).x : ℚ) ((Pathfinder.worldToCell 0 0).z : ℚ)
      ((Pathfinder.worldToCell (5 : ℚ) (7 : ℚ)).x : ℚ)
      ((Pathfinder.worldToCell (5 : ℚ) (7 : ℚ)).z : ℚ) = none := by
    norm_num [Pathfinder.worldToCell, jsRound, Pathfinder.findPath]
    decide
  have h2 := (findPath_failure_contract ⟨{(5, 7)}⟩ 0 0 5 7 1000 0 0
    ⟨[], -1, 5, 7, 1, true, 0⟩).2.2.2.2 rfl le_rfl hcells
  exact ⟨h1, h2.1, h2.2⟩

/-- C8: while colliding, a player contact with no block contact during an
active pursuit (seeking or seek-and-destroy) restores the recorded
pre-move position and leaves the path follower — its `path`, `pathIndex`
and `needsPath` — untouched; any block contact restores the pre-move
position and clears the path, whatever the pursuit state. -/
theorem collisionResponse_policy (state : CollisionState) (movement : MovementState)
    (pos : ℚ × ℚ) (seekState : Option SeekState) (pf : PathFollower)
    (wanderWait : Option ℚ) :
    (state.isColliding = true →
      state.contacts.find? (fun c => c.layer = .block) = none →
      (∃ c, state.contacts.find? (fun c => c.layer = .player) = some c) →
      (seekState = some .seeking ∨ seekState = some .seekAndDestroy) →
      collisionResponse state movement pos seekState (some pf) wanderWait
        = ⟨(movement.prevX, movement.prevZ), some pf, wanderWait⟩) ∧
    (∀ c0, state.isColliding = true →
      state.contacts.find? (fun c => c.layer = .block) = some c0 →
      collisionResponse state movement pos seekState (some pf) wanderWait
        = ⟨(movement.prevX, movement.prevZ),
            some { pf with path := [], pathIndex := -1, needsPath := false },
            wanderWait.map fun _ => 1/5⟩) := by
  constructor
  · rintro hcol hblock ⟨c0, hplayer⟩ hseek
    unfold collisionResponse
    rw [hcol]
    simp only [Bool.true_eq_false, if_false, hblock, hplayer]
    rw [if_pos hseek]
  · intro c0 hcol hblock
    unfold collisionResponse
    rw [hcol]
    simp only [Bool.true_eq_false, if_false, hblock, Option.map_some']

/-- C8 witness: a seeking entity touching the player keeps its follower;
a block contact clears it, also while seeking. -/
theorem collisionResponse_policy_witness :
    collisionResponse ⟨true, [⟨.player, 0, 0, 0⟩]⟩ ⟨1, 2⟩ (3, 4) (some .seeking)
        (some ⟨[⟨0, 0⟩], 0, 9, 9, 1, false, 0⟩) (some 0)
      = ⟨((1 : ℚ), (2 : ℚ)), some ⟨[⟨0, 0⟩], 0, 9, 9, 1, false, 0⟩, some 0⟩ ∧
    collisionResponse ⟨true, [⟨.block, 0, 0, 0⟩]⟩ ⟨1, 2⟩ (3, 4) (some .seeking)
        (some ⟨[⟨0, 0⟩], 0, 9, 9, 1, false, 0⟩) (some 0)
      = ⟨((1 : ℚ), (2 : ℚ)), some ⟨[], -1, 9, 9, 1, false, 0⟩, some (1/5)⟩ := by
  constructor
  · exact (collisionResponse_policy ⟨true, [⟨.player, 0, 0, 0⟩]⟩ ⟨1, 2⟩ (3, 4)
      (some .seeking) ⟨[⟨0, 0⟩], 0, 9, 9, 1, false, 0⟩ (some 0)).1 rfl (by decide)
      ⟨⟨.player, 0, 0, 0⟩, by decide⟩ (Or.inl rfl)
  · exact (collisionResponse_policy ⟨true, [⟨.block, 0, 0, 0⟩]⟩ ⟨1, 2⟩ (3, 4)
      (some .seeking) ⟨[⟨0, 0⟩], 0, 9, 9, 1, false, 0⟩ (some 0)).2
      ⟨.block, 0, 0, 0⟩ rfl (by decide)

/-- One accepted wander attempt: the cell is unblocked, is not the
avoided cell, and each axis offset from the origin cell lies in
`(-radius - 1, radius]` — the flooring of the polar sample can undershoot
the radius by up to one cell on the negative side. -/
theorem pickAttempt_spec {p : Pathfinder} {originCell : PathPoint} {radius : ℚ}
    {avoidCell : Option PathPoint} {d : Draw} {t : PathPoint}
    (hcirc : d.c * d.c + d.s * d.s = 1) (hu0 : 0 ≤ d.u) (hu1 : d.u < 1)
    (hrad : 0 ≤ radius)
    (h : pickAttempt p originCell radius avoidCell d = some t) :
    p.isBlocked t.x t.z = false ∧
    (∀ a, avoidCell = some a → t ≠ a) ∧
    ((t.x - originCell.x : Int) : ℚ) ≤ radius ∧
    -radius - 1 < ((t.x - originCell.x : Int) : ℚ) ∧
    ((t.z - originCell.z : Int) : ℚ) ≤ radius ∧
    -radius - 1 < ((t.z - originCell.z : Int) : ℚ) := by
  have habs : ∀ w : ℚ, w * w ≤ 1 → w * (d.u * radius) ≤ radius ∧
      -radius ≤ w * (d.u * radius) := by
    intro w hw
    have hw1 : |w| ≤ 1 := abs_le_one_iff_mul_self_le_one.mpr hw
    have hur0 : 0 ≤ d.u * radius := mul_nonneg hu0 hrad
    have hur : d.u * radius ≤ radius := by
      calc d.u * radius ≤ 1 * radius := mul_le_mul_of_nonneg_right (le_of_lt hu1) hrad
        _ = radius := one_mul radius
    have hb : |w * (d.u * radius)| ≤ d.u * radius := by
      rw [abs_mul, abs_of_nonneg hur0]
      calc |w| * (d.u * radius) ≤ 1 * (d.u * radius) :=
            mul_le_mul_of_nonneg_right hw1 hur0
        _ = d.u * radius := one_mul _
    have hb2 := abs_le.mp hb
    constructor
    · linarith [hb2.2]
    · linarith [hb2.1]
  have hc2 : d.c * d.c ≤ 1 := by nlinarith [mul_self_nonneg d.s]
  have hs2 : d.s * d.s ≤ 1 := by nlinarith [mul_self_nonneg d.c]
  obtain ⟨hcub, hclb⟩ := habs d.c hc2
  obtain ⟨hsub, hslb⟩ := habs d.s hs2
  unfold pickAttempt at h
  dsimp only at h
  split at h
  · exact absurd h (by simp)
  next hbl =>
    split at h
    · exact absurd h (by simp)
    next hav =>
      have hblf : p.isBlocked (originCell.x + ⌊d.c * (d.u * radius)⌋)
          (originCell.z + ⌊d.s * (d.u * radius)⌋) = false := by
        simpa using hbl
      injection h with ht
      subst ht
      refine ⟨hblf, ?_, ?_, ?_, ?_, ?_⟩
      · intro a ha heq
        apply hav
        rw [ha]
        simp only [Option.any_some, decide_eq_true_eq]
        have hx := congrArg PathPoint.x heq
        have hz := congrArg PathPoint.z heq
        simp only at hx hz
        exact ⟨hx, hz⟩
      · have hfl : ((⌊d.c * (d.u * radius)⌋ : Int) : ℚ) ≤ d.c * (d.u * radius) :=
          Int.floor_le _
        push_cast
        simp only [add_sub_cancel_left]
        linarith
      · have hfl : d.c * (d.u * radius) - 1 < ((⌊d.c * (d.u * radius)⌋ : Int) : ℚ) :=
          Int.sub_one_lt_floor _
        push_cast
        simp only [add_sub_cancel_left]
        linarith
      · have hfl : ((⌊d.s * (d.u * radius)⌋ : Int) : ℚ) ≤ d.s * (d.u * radius) :=
          Int.floor_le _
        push_cast
        simp only [add_sub_cancel_left]
        linarith
      · have hfl : d.s * (d.u * radius) - 1 < ((⌊d.s * (d.u * radius)⌋ : Int) : ℚ) :=
          Int.sub_one_lt_floor _
        push_cast
        simp only [add_sub_cancel_left]
        linarith

/-- A cell accepted anywhere in the attempt loop satisfies the
per-attempt guarantees. -/
theorem pickFrom_sound {p : Pathfinder} {originCell : PathPoint} {radius : ℚ}
    {avoidCell : Option PathPoint} (hrad : 0 ≤ radius) :
    ∀ (ds : List Draw),
      (∀ d ∈ ds, d.c * d.c + d.s * d.s = 1 ∧ 0 ≤ d.u ∧ d.u < 1) →
      ∀ t, pickFrom p originCell radius avoidCell ds = some t →
        p.isBlocked t.x t.z = false ∧
        (∀ a, avoidCell = some a → t ≠ a) ∧
        ((t.x - originCell.x : Int) : ℚ) ≤ radius ∧
        -radius - 1 < ((t.x - originCell.x : Int) : ℚ) ∧
        ((t.z - originCell.z : Int) : ℚ) ≤ radius ∧
        -radius - 1 < ((t.z - originCell.z : Int) : ℚ) := by
  intro ds
  induction ds with
  | nil => intro _ t ht; exact absurd ht (by simp [pickFrom])
  | cons d rest ih =>
    intro hds t ht
    unfold pickFrom at ht
    cases hatt : pickAttempt p originCell radius avoidCell d with
    | some cell =>
      rw [hatt] at ht
      injection ht with ht2
      subst ht2
      obtain ⟨h1, h2, h3⟩ := hds d (List.mem_cons_self d rest)
      exact pickAttempt_spec h1 h2 h3 hrad hatt
    | none =>
      rw [hatt] at ht
      exact ih (fun e he => hds e (List.mem_cons_of_mem d he)) t ht

/-- When every attempt rejects, the loop reports no cell. -/
theorem pickFrom_none {p : Pathfinder} {originCell : PathPoint} {radius : ℚ}
    {avoidCell : Option PathPoint} :
    ∀ (ds : List Draw),
      (∀ d ∈ ds, pickAttempt p originCell radius avoidCell d = none) →
      pickFrom p originCell radius avoidCell ds = none := by
  intro ds
  induction ds with
  | nil => intro _; rfl
  | cons d rest ih =>
    intro hall
    unfold pickFrom
    rw [hall d (List.mem_cons_self d rest)]
    exact ih fun e he => hall e (List.mem_cons_of_mem d he)

/-- C9, amended: every wander target cell handed over by
`pickWalkableTargetCell` is an unblocked cell, is not the avoided
(adversary) cell, and each axis offset from the origin cell lies in
`(-radius - 1, radius]` — within the wander radius up to the one-cell
negative slack of `Math.floor`, not within the exact Euclidean radius;
only the first 20 draws are ever inspected; when all of them reject, the
function returns `none` and the NPC retarget step sets the wander wait
timer to 0.5 and leaves the path follower unchanged instead of
retargeting. -/
theorem pickWalkableTargetCell_spec (p : Pathfinder) (originX originZ radius : ℚ)
    (avoidCell : Option PathPoint) (draws : List Draw)
    (hdraws : ∀ d ∈ draws, d.c * d.c + d.s * d.s = 1 ∧ 0 ≤ d.u ∧ d.u < 1)
    (hrad : 0 ≤ radius) :
    (∀ t, pickWalkableTargetCell p originX originZ radius avoidCell draws = some t →
      p.isBlocked t.x t.z = false ∧
      (∀ a, avoidCell = some a → t ≠ a) ∧
      ((t.x - (Pathfinder.worldToCell originX originZ).x : Int) : ℚ) ≤ radius ∧
      -radius - 1 < ((t.x - (Pathfinder.worldToCell originX originZ).x : Int) : ℚ) ∧
      ((t.z - (Pathfinder.worldToCell originX originZ).z : Int) : ℚ) ≤ radius ∧
      -radius - 1 < ((t.z - (Pathfinder.worldToCell originX originZ).z : Int) : ℚ)) ∧
    pickWalkableTargetCell p originX originZ radius avoidCell draws
      = pickWalkableTargetCell p originX originZ radius avoidCell
          (draws.take MAX_TARGET_ATTEMPTS) ∧
    ((∀ d ∈ draws.take MAX_TARGET_ATTEMPTS,
        pickAttempt p (Pathfinder.worldToCell originX originZ) radius avoidCell d = none) →
      pickWalkableTargetCell p originX originZ radius avoidCell draws = none) ∧
    (∀ (w : WanderBehavior) (pf : PathFollower) (playerCell : Option PathPoint)
        (ds : List Draw),
      pickWalkableTargetCell p w.originX w.originZ w.radius playerCell ds = none →
      (wanderRetarget p w pf playerCell ds).1.waitTime = 1/2 ∧
      (wanderRetarget p w pf playerCell ds).2 = pf) := by
  refine ⟨?_, ?_, ?_, ?_⟩
  · intro t ht
    exact pickFrom_sound hrad (draws.take MAX_TARGET_ATTEMPTS)
      (fun d hd => hdraws d (List.mem_of_mem_take hd)) t ht
  · unfold pickWalkableTargetCell
    rw [List.take_take, min_self]
  · intro hall
    exact pickFrom_none (draws.take MAX_TARGET_ATTEMPTS) hall
  · intro w pf playerCell ds hnone
    unfold wanderRetarget
    rw [hnone]
    exact ⟨rfl, rfl⟩

/-- C9 witness: with no draws every attempt rejects, the pick returns
`none`, and the retarget step arms the wait timer without touching the
follower. -/
theorem pickWalkableTargetCell_spec_witness :
    pickWalkableTargetCell ⟨∅⟩ 0 0 0 none [] = none ∧
    (wanderRetarget ⟨∅⟩ ⟨0, 0, 0, 0⟩ ⟨[], -1, 0, 0, 1, false, 0⟩ none []).1.waitTime
        = 1/2 ∧
    (wanderRetarget ⟨∅⟩ ⟨0, 0, 0, 0⟩ ⟨[], -1, 0, 0, 1, false, 0⟩ none []).2
        = ⟨[], -1, 0, 0, 1, false, 0⟩ := by
  have hspec := pickWalkableTargetCell_spec ⟨∅⟩ 0 0 0 none []
    (by intro d hd; exact absurd hd (List.not_mem_nil d)) le_rfl
  have hnone : pickWalkableTargetCell ⟨∅⟩ 0 0 0 none [] = none :=
    hspec.2.2.1 (by intro d hd; exact absurd hd (by simp))
  have hw := hspec.2.2.2 ⟨0, 0, 0, 0⟩ ⟨[], -1, 0, 0, 1, false, 0⟩ none [] hnone
  exact ⟨hnone, hw.1, hw.2⟩

/-- C9 counterexample to the claim as stated: a legal draw (a rational
point of the unit circle and a `Math.random` sample below 1) with wander
radius 5 hands over the cell (-4, -4), whose Euclidean distance from the
origin cell (0, 0) is the square root of 32 > 5 — the accepted cell is
not within the wander radius. -/
theorem pickWalkableTargetCell_radius_counterexample :
    ((-20/29 : ℚ) * (-20/29) + (-21/29) * (-21/29) = 1 ∧
      (0 : ℚ) ≤ 499/500 ∧ (499/500 : ℚ) < 1 ∧ (0 : ℚ) ≤ 5) ∧
    pickWalkableTargetCell ⟨∅⟩ 0 0 5 none [⟨-20/29, -21/29, 499/500⟩]
      = some ⟨-4, -4⟩ ∧
    Pathfinder.worldToCell 0 0 = ⟨0, 0⟩ ∧
    ¬((((-4 : Int) - 0 : Int) : ℚ) * (((-4 : Int) - 0 : Int) : ℚ)
        + (((-4 : Int) - 0 : Int) : ℚ) * (((-4 : Int) - 0 : Int) : ℚ) ≤ 5 * 5) := by
  have hwc : Pathfinder.worldToCell 0 0 = (⟨0, 0⟩ : PathPoint) := by
    unfold Pathfinder.worldToCell jsRound
    norm_num
  have hfx : ⌊(-20/29 : ℚ) * (499/500 * 5)⌋ = -4 := by
    rw [Int.floor_eq_iff]
    constructor <;> norm_num
  have hfz : ⌊(-21/29 : ℚ) * (499/500 * 5)⌋ = -4 := by
    rw [Int.floor_eq_iff]
    constructor <;> norm_num
  have hatt : pickAttempt ⟨∅⟩ (⟨0, 0⟩ : PathPoint) 5 none ⟨-20/29, -21/29, 499/500⟩
      = some ⟨-4, -4⟩ := by
    unfold pickAttempt
    dsimp only
    rw [hfx, hfz]
    simp [Pathfinder.isBlocked]
  have heval : pickWalkableTargetCell ⟨∅⟩ 0 0 5 none [⟨-20/29, -21/29, 499/500⟩]
      = some ⟨-4, -4⟩ := by
    unfold pickWalkableTargetCell
    rw [hwc]
    show pickFrom ⟨∅⟩ ⟨0, 0⟩ 5 none [⟨-20/29, -21/29, 499/500⟩] = some ⟨-4, -4⟩
    unfold pickFrom
    rw [hatt]
  refine ⟨by constructor <;> norm_num, heval, hwc, by norm_num⟩

/-- A seeking tick with the step budget exhausted after counting:
aggravation goes up by one, and the next state is seek-and-destroy
exactly when the new count reaches the threshold, else cooldown. -/
theorem seekTick_seeking_exhaust {seek : SeekBehavior} {pf : PathFollower}
    {wanderWait : Option ℚ} {enemy : Option (ℚ × ℚ)} {info : Option TargetInfo}
    {distToTarget : ℚ} {prevIdx : Option Int} {skip : Bool} {dt : ℚ} {ti : TargetInfo}
    (hstate : seek.state = .seeking) (hinfo : info = some ti)
    (hex : (countStep seek.stepsRemaining pf.pathIndex (prevIdx.getD (-1)) skip).1 ≤ 0) :
    (seekTick seek pf wanderWait enemy info distToTarget prevIdx skip dt).seek.aggravationCount
        = seek.aggravationCount + 1 ∧
    ((seekTick seek pf wanderWait enemy info distToTarget prevIdx skip dt).seek.state
        = .seekAndDestroy ↔ seek.aggravationThreshold ≤ seek.aggravationCount + 1) ∧
    (¬ seek.aggravationThreshold ≤ seek.aggravationCount + 1 →
      (seekTick seek pf wanderWait enemy info distToTarget prevIdx skip dt).seek.state
        = .cooldown) := by
  unfold seekTick
  rw [hstate, hinfo]
  dsimp only
  rw [if_pos hex]
  by_cases hth : seek.aggravationThreshold ≤ seek.aggravationCount + 1
  · rw [if_pos hth]
    refine ⟨rfl, ?_, ?_⟩
    · simp only [true_iff, hth]
    · intro hc
      exact absurd hth hc
  · rw [if_neg hth]
    refine ⟨rfl, ?_, fun _ => rfl⟩
    constructor
    · intro hc
      exact absurd hc (by simp)
    · intro hc
      exact absurd hc hth

/-- A seek-and-destroy tick that meets an exit condition (target gone,
opponent escape, or duration expired) resets the aggravation counter and
drops to cooldown. -/
theorem seekTick_sad_exit {seek : SeekBehavior} {pf : PathFollower}
    {wanderWait : Option ℚ} {enemy : Option (ℚ × ℚ)} {info : Option TargetInfo}
    {distToTarget : ℚ} {prevIdx : Option Int} {skip : Bool} {dt : ℚ}
    (hstate : seek.state = .seekAndDestroy)
    (hexit : info = none ∨ distToTarget > seek.detectionRadius * 4 ∨
      seek.seekAndDestroyRemaining - dt ≤ 0) :
    (seekTick seek pf wanderWait enemy info distToTarget prevIdx skip dt).seek.aggravationCount
        = 0 ∧
    (seekTick seek pf wanderWait enemy info distToTarget prevIdx skip dt).seek.state
        = .cooldown := by
  unfold seekTick
  rw [hstate]
  dsimp only
  cases hinfo : info with
  | none => exact ⟨rfl, rfl⟩
  | some ti =>
    dsimp only
    by_cases hesc : distToTarget > seek.detectionRadius * 4
    · rw [if_pos hesc]
      exact ⟨rfl, rfl⟩
    · rw [if_neg hesc]
      have htime : seek.seekAndDestroyRemaining - dt ≤ 0 := by
        rcases hexit with h | h | h
        · rw [hinfo] at h; exact absurd h (by simp)
        · exact absurd h hesc
        · exact h
      rw [if_pos htime]
      exact ⟨rfl, rfl⟩

/-- Every tick that is not an exhausted seeking tick and not a
seek-and-destroy exit leaves the aggravation counter unchanged. -/
theorem seekTick_aggravation_unchanged {seek : SeekBehavior} {pf : PathFollower}
    {wanderWait : Option ℚ} {enemy : Option (ℚ × ℚ)} {info : Option TargetInfo}
    {distToTarget : ℚ} {prevIdx : Option Int} {skip : Bool} {dt : ℚ}
    (hnotex : ¬(seek.state = .seeking ∧ (∃ ti, info = some ti) ∧
      (countStep seek.stepsRemaining pf.pathIndex (prevIdx.getD (-1)) skip).1 ≤ 0))
    (hnotsadexit : ¬(seek.state = .seekAndDestroy ∧
      (info = none ∨ distToTarget > seek.detectionRadius * 4 ∨
        seek.seekAndDestroyRemaining - dt ≤ 0))) :
    (seekTick seek pf wanderWait enemy info distToTarget prevIdx skip dt).seek.aggravationCount
        = seek.aggravationCount := by
  unfold seekTick
  cases hstate : seek.state with
  | idle =>
    cases enemy with
    | none => rfl
    | some epos => rfl
  | seeking =>
    cases hinfo : info with
    | none => rfl
    | some ti =>
      dsimp only
      by_cases hex :
          (countStep seek.stepsRemaining pf.pathIndex (prevIdx.getD (-1)) skip).1 ≤ 0
      · exact absurd ⟨hstate, ⟨ti, hinfo⟩, hex⟩ hnotex
      · rw [if_neg hex]
        by_cases hmoved : (Pathfinder.worldToCell ti.posX ti.posZ).x ≠ seek.lastPlayerCellX ∨
            (Pathfinder.worldToCell ti.posX ti.posZ).z ≠ seek.lastPlayerCellZ
        · simp only [if_pos hmoved]
        · simp only [if_neg hmoved]
  | cooldown =>
    dsimp only
    by_cases hcd : seek.cooldownRemaining - dt ≤ 0
    · rw [if_pos hcd]
    · rw [if_neg hcd]
  | seekAndDestroy =>
    cases hinfo : info with
    | none => exact absurd ⟨hstate, Or.inl hinfo⟩ hnotsadexit
    | some ti =>
      dsimp only
      by_cases hesc : distToTarget > seek.detectionRadius * 4
      · exact absurd ⟨hstate, Or.inr (Or.inl hesc)⟩ hnotsadexit
      · rw [if_neg hesc]
        by_cases htime : seek.seekAndDestroyRemaining - dt ≤ 0
        · exact absurd ⟨hstate, Or.inr (Or.inr htime)⟩ hnotsadexit
        · rw [if_neg htime]

/-- C6: pursuit aggravation accounting.  Each seeking tick whose step
budget is exhausted after waypoint counting increments the aggravation
counter by exactly one and enters seek-and-destroy exactly when the new
count reaches the threshold (3 in the game's NPC configuration), dropping
to cooldown otherwise; a cooldown tick never changes the counter; a
nonnegative counter is reset to zero only by the end of seek-and-destroy
— target vanished, opponent escaped beyond four detection radii, or
duration expired — which moves to cooldown; and every such end does reset
it. -/
theorem seekTick_aggravation_policy (seek : SeekBehavior) (pf : PathFollower)
    (wanderWait : Option ℚ) (enemy : Option (ℚ × ℚ)) (info : Option TargetInfo)
    (distToTarget : ℚ) (prevIdx : Option Int) (skip : Bool) (dt : ℚ) :
    (∀ ti, seek.state = .seeking → info = some ti →
      (countStep seek.stepsRemaining pf.pathIndex (prevIdx.getD (-1)) skip).1 ≤ 0 →
      (seekTick seek pf wanderWait enemy info distToTarget prevIdx skip dt).seek.aggravationCount
          = seek.aggravationCount + 1 ∧
      ((seekTick seek pf wanderWait enemy info distToTarget prevIdx skip dt).seek.state
          = .seekAndDestroy ↔ seek.aggravationThreshold ≤ seek.aggravationCount + 1) ∧
      (¬ seek.aggravationThreshold ≤ seek.aggravationCount + 1 →
        (seekTick seek pf wanderWait enemy info distToTarget prevIdx skip dt).seek.state
          = .cooldown)) ∧
    (seek.state = .cooldown →
      (seekTick seek pf wanderWait enemy info distToTarget prevIdx skip dt).seek.aggravationCount
        = seek.aggravationCount) ∧
    (0 ≤ seek.aggravationCount →
      (seekTick seek pf wanderWait enemy info distToTarget prevIdx skip dt).seek.aggravationCount = 0 →
      (seekTick seek pf wanderWait enemy info distToTarget prevIdx skip dt).seek.aggravationCount
          ≠ seek.aggravationCount →
      seek.state = .seekAndDestroy ∧
      (seekTick seek pf wanderWait enemy info distToTarget prevIdx skip dt).seek.state = .cooldown ∧
      (info = none ∨ distToTarget > seek.detectionRadius * 4 ∨
        seek.seekAndDestroyRemaining - dt ≤ 0)) ∧
    (seek.state = .seekAndDestroy →
      (info = none ∨ distToTarget > seek.detectionRadius * 4 ∨
        seek.seekAndDestroyRemaining - dt ≤ 0) →
      (seekTick seek pf wanderWait enemy info distToTarget prevIdx skip dt).seek.aggravationCount = 0 ∧
      (seekTick seek pf wanderWait enemy info distToTarget prevIdx skip dt).seek.state = .cooldown) := by
  refine ⟨?_, ?_, ?_, ?_⟩
  · intro ti hstate hinfo hex
    exact seekTick_seeking_exhaust hstate hinfo hex
  · intro hstate
    apply seekTick_aggravation_unchanged
    · rintro ⟨hs, _, _⟩
      rw [hstate] at hs
      exact absurd hs (by simp)
    · rintro ⟨hs, _⟩
      rw [hstate] at hs
      exact absurd hs (by simp)
  · intro hnonneg hzero hchange
    by_cases hsadexit : seek.state = .seekAndDestroy ∧
        (info = none ∨ distToTarget > seek.detectionRadius * 4 ∨
          seek.seekAndDestroyRemaining - dt ≤ 0)
    · exact ⟨hsadexit.1, (seekTick_sad_exit hsadexit.1 hsadexit.2).2, hsadexit.2⟩
    · by_cases hex : seek.state = .seeking ∧ (∃ ti, info = some ti) ∧
          (countStep seek.stepsRemaining pf.pathIndex (prevIdx.getD (-1)) skip).1 ≤ 0
      · obtain ⟨hs, ⟨ti, hinfo⟩, hcount⟩ := hex
        have h1 : (seekTick seek pf wanderWait enemy info distToTarget prevIdx
            skip dt).seek.aggravationCount = seek.aggravationCount + 1 :=
          (seekTick_seeking_exhaust hs hinfo hcount).1
        rw [hzero] at h1
        omega
      · have hsame : (seekTick seek pf wanderWait enemy info distToTarget prevIdx
            skip dt).seek.aggravationCount = seek.aggravationCount :=
          seekTick_aggravation_unchanged hex hsadexit
        exact absurd hsame hchange
  · intro hstate hexit
    exact seekTick_sad_exit hstate hexit

/-- C6 witness: a concrete seeking NPC at threshold 3 and count 2 runs
out of budget, increments to 3, and enters seek-and-destroy; and a
concrete seek-and-destroy timeout resets the counter to zero in
cooldown. -/
theorem seekTick_aggravation_policy_witness :
    (seekTick ⟨.seeking, 6, 10, 0, 2, 0, 0, 0, 2, 3, 10, 10⟩
        ⟨[], -1, 0, 0, 1, false, 0⟩ (some 0) none (some ⟨0, 0, none⟩)
        0 none false (1/10)).seek.aggravationCount = 2 + 1 ∧
    (seekTick ⟨.seeking, 6, 10, 0, 2, 0, 0, 0, 2, 3, 10, 10⟩
        ⟨[], -1, 0, 0, 1, false, 0⟩ (some 0) none (some ⟨0, 0, none⟩)
        0 none false (1/10)).seek.state = .seekAndDestroy ∧
    (seekTick ⟨.seekAndDestroy, 6, 10, 0, 2, 0, 0, 0, 3, 3, 10, 1/10⟩
        ⟨[], -1, 0, 0, 1, false, 0⟩ (some 0) none (some ⟨0, 0, none⟩)
        0 none false (1/10)).seek.aggravationCount = 0 ∧
    (seekTick ⟨.seekAndDestroy, 6, 10, 0, 2, 0, 0, 0, 3, 3, 10, 1/10⟩
        ⟨[], -1, 0, 0, 1, false, 0⟩ (some 0) none (some ⟨0, 0, none⟩)
        0 none false (1/10)).seek.state = .cooldown := by
  have h1 := (seekTick_aggravation_policy ⟨.seeking, 6, 10, 0, 2, 0, 0, 0, 2, 3, 10, 10⟩
    ⟨[], -1, 0, 0, 1, false, 0⟩ (some 0) none (some ⟨0, 0, none⟩) 0 none false
    (1/10)).1 ⟨0, 0, none⟩ rfl rfl (by decide)
  have h2 := (seekTick_aggravation_policy ⟨.seekAndDestroy, 6, 10, 0, 2, 0, 0, 0, 3, 3, 10, 1/10⟩
    ⟨[], -1, 0, 0, 1, false, 0⟩ (some 0) none (some ⟨0, 0, none⟩) 0 none false
    (1/10)).2.2.2 rfl (Or.inr (Or.inr (by norm_num)))
  exact ⟨h1.1, h1.2.1.mpr (by decide), h2.1, h2.2⟩

end Game
